import Mathlib

/-!
# Doubly-linked `List` over a sentinel ring (src/list.cpp)

The embedding keeps the pointer structure of the source.  Memory is a set of
field maps indexed by address: `next_`, `prev_` and `val` are the members of
`BaseNode` / `Node`, and `live` says whether an object currently occupies the
address.  Reading or writing a member of an object that is not live (a node
that was deallocated, a temporary whose full expression has ended) has no
defined result in C++; the embedding reports it as `Res.ub`.

A `List` object is the record of its data members; the embedded sentinel
`head_` lives in memory at the address `head_` of the record, so two records
denote the same C++ object exactly when their `head_` addresses agree.

The allocator is the template parameter of the source.  It is modelled by its
trace: every `allocate`, `deallocate` and `destroy` call is logged, newest
first, and `allocate` hands out an address that no object occupies (addresses
are taken in increasing order and not handed out twice).  `sz_` is a `size_t`:
`++sz_` and `--sz_` are taken modulo `2 ^ 64`.

The element type `T` enters through `ValueType`: which values make the copy
constructor throw, and what the default constructor builds.  Loops carry a
fuel argument; the theorems show that the stated amount of fuel is enough for
the call to return.

`StackStorage` and `StackAllocator` are embedded on their own: a storage is
the record of its buffer address, capacity, cursor `top` and member `size`;
`allocate` and `deallocate` are functions on the storage an allocator is bound
to, with `sizeof(T)` and `alignof(T)` given by `ElemType`.  Addresses are
natural numbers; the library call `std::align` follows the C++ standard.
-/

namespace ListSpec

/-- Calls made through `AllocNodeTraits`, newest first. -/
inductive Event where
  | allocate (alloc p n : Nat)
  | deallocate (alloc p n : Nat)
  | destroy (alloc p : Nat)
deriving DecidableEq, Repr

/-- Memory, the supply of unused addresses, and the allocator trace. -/
structure World (α : Type) where
  live : Nat → Bool
  next_ : Nat → Nat
  prev_ : Nat → Nat
  val : Nat → Option α
  fresh : Nat
  log : List Event

/-- The element type `T` as far as the container uses it: whether the copy
constructor throws on a given value, and the value `T()` builds (`none` when
the default constructor throws). -/
structure ValueType (α : Type) where
  copyThrows : α → Bool
  dflt : Option α

/-- Data members of `List<T, Allocator>` (lines 159-163); `head_` is the address
of the embedded sentinel, iterators are the address in their `node_`. -/
structure ListObj where
  sz_ : Nat
  head_ : Nat
  alloc_ : Nat
  end_ : Nat
  begin_ : Nat
deriving DecidableEq, Repr

/-- Outcome of a member function: it returned (`ok`), an exception left it
(`thrown`, with the state left behind), it ran into undefined behaviour (`ub`),
or the fuel of a loop ran out (`fuel`). -/
inductive Res (σ : Type) where
  | ok (s : σ)
  | thrown (s : σ)
  | ub
  | fuel

/-- An empty memory: nothing is live, addresses start at `0`. -/
def World.empty (α : Type) : World α :=
  { live := fun _ => false, next_ := fun _ => 0, prev_ := fun _ => 0,
    val := fun _ => none, fresh := 0, log := [] }

/-- Read `a->next_`. -/
def getNext {α : Type} (w : World α) (a : Nat) : Option Nat :=
  if w.live a then some (w.next_ a) else none

/-- Read `a->prev_`. -/
def getPrev {α : Type} (w : World α) (a : Nat) : Option Nat :=
  if w.live a then some (w.prev_ a) else none

/-- Read `static_cast<Node*>(a)->val` (lines 135-137); only a live payload node
has one. -/
def getVal {α : Type} (w : World α) (a : Nat) : Option α :=
  if w.live a then w.val a else none

/-- Write `a->next_ = b`. -/
def setNext {α : Type} (w : World α) (a b : Nat) : Option (World α) :=
  if w.live a then some { w with next_ := Function.update w.next_ a b } else none

/-- Write `a->prev_ = b`. -/
def setPrev {α : Type} (w : World α) (a b : Nat) : Option (World α) :=
  if w.live a then some { w with prev_ := Function.update w.prev_ a b } else none

/-- Write through a mutable iterator, `*it = v`. -/
def setVal {α : Type} (w : World α) (a : Nat) (v : α) : Option (World α) :=
  if w.live a && (w.val a).isSome then
    some { w with val := Function.update w.val a (some v) }
  else none

/-- The call `AllocNodeTraits::allocate(alloc, n)`: an unused address, logged. -/
def allocate {α : Type} (w : World α) (alloc n : Nat) : World α × Nat :=
  ({ w with fresh := w.fresh + 1, log := Event.allocate alloc w.fresh n :: w.log }, w.fresh)

/-- Addresses handed out by `allocate` and not yet given back. -/
def outstanding : List Event → List Nat
  | [] => []
  | Event.allocate _ p _ :: es => p :: outstanding es
  | Event.deallocate _ p _ :: es => (outstanding es).erase p
  | Event.destroy _ _ :: es => outstanding es

/-- The call `AllocNodeTraits::deallocate(alloc, p, n)`: logged; the storage at
`p` ends when `p` is an outstanding allocation. -/
def deallocate {α : Type} (w : World α) (alloc p n : Nat) : World α :=
  { w with
    live := if p ∈ outstanding w.log then Function.update w.live p false else w.live,
    log := Event.deallocate alloc p n :: w.log }

/-- The call `AllocNodeTraits::construct(alloc_, new_node, ...)`: `BaseNode()`
makes the node self-linked (line 71), then the value is built; `v = none` is a
throwing constructor, which leaves the storage raw. -/
def construct {α : Type} (w : World α) (p : Nat) (v : Option α) : Option (World α) :=
  v.map fun x =>
    { w with
      live := Function.update w.live p true,
      next_ := Function.update w.next_ p p,
      prev_ := Function.update w.prev_ p p,
      val := Function.update w.val p (some x) }

/-- The call `AllocNodeTraits::destroy(alloc, static_cast<Node*>(p))`: ends the
value of a payload node. -/
def destroy {α : Type} (w : World α) (alloc p : Nat) : Option (World α) :=
  if w.live p && (w.val p).isSome then
    some { w with val := Function.update w.val p none, log := Event.destroy alloc p :: w.log }
  else none

/-- Constructor `List(const Allocator&)` (line 166): the object is placed at an
unused address, its sentinel self-linked. -/
def ctor {α : Type} (w : World α) (alloc : Nat) : World α × ListObj :=
  ({ w with
     fresh := w.fresh + 1,
     live := Function.update w.live w.fresh true,
     next_ := Function.update w.next_ w.fresh w.fresh,
     prev_ := Function.update w.prev_ w.fresh w.fresh,
     val := Function.update w.val w.fresh none },
   { sz_ := 0, head_ := w.fresh, alloc_ := alloc, end_ := w.fresh, begin_ := w.fresh })

/-- Member `size()` (lines 248-250). -/
def size (l : ListObj) : Nat := l.sz_

/-- Member `begin()` (lines 252-254): the cached iterator. -/
def begin_iter (l : ListObj) : Nat := l.begin_

/-- Member `end()` (lines 256-258): the cached iterator. -/
def end_iter (l : ListObj) : Nat := l.end_

/-- Iterator `operator++` (lines 105-108). -/
def iter_inc {α : Type} (w : World α) (it : Nat) : Option Nat := getNext w it

/-- Iterator `operator--` (lines 110-113). -/
def iter_dec {α : Type} (w : World α) (it : Nat) : Option Nat := getPrev w it

/-- Lines 304-307 of `insert`: the four link assignments. -/
def linkBefore {α : Type} (w : World α) (new_node ptr : Nat) : Option (World α) :=
  (setNext w new_node ptr).bind fun w1 =>
  (getPrev w1 ptr).bind fun p =>
  (setPrev w1 new_node p).bind fun w2 =>
  (setPrev w2 ptr new_node).bind fun w3 =>
  (getPrev w3 new_node).bind fun q =>
  setNext w3 q new_node

/-- Body shared by both `insert` overloads (lines 300-324); `v` is what the
element constructor produces, `none` when it throws. -/
def insertWith {α : Type} (w : World α) (l : ListObj) (ptr : Nat) (v : Option α) :
    Res (World α × ListObj) :=
  match construct (allocate w l.alloc_ 1).1 (allocate w l.alloc_ 1).2 v with
  | none => Res.thrown ((allocate w l.alloc_ 1).1, l)
  | some w2 =>
    match linkBefore w2 (allocate w l.alloc_ 1).2 ptr with
    | none => Res.ub
    | some w3 =>
      match iter_inc w3 (end_iter l) with
      | none => Res.ub
      | some b => Res.ok (w3, { l with sz_ := (l.sz_ + 1) % 2 ^ 64, begin_ := b })

/-- Member `insert(const_iterator, const T&)` (lines 300-311). -/
def insert {α : Type} (T : ValueType α) (w : World α) (l : ListObj) (ptr : Nat) (v : α) :
    Res (World α × ListObj) :=
  insertWith w l ptr (if T.copyThrows v then none else some v)

/-- Member `insert(const_iterator)` (lines 313-324). -/
def insert_default {α : Type} (T : ValueType α) (w : World α) (l : ListObj) (ptr : Nat) :
    Res (World α × ListObj) :=
  insertWith w l ptr T.dflt

/-- Lines 328-329 of `erase`: the two link assignments. -/
def unlink {α : Type} (w : World α) (ptr : Nat) : Option (World α) :=
  (getPrev w ptr).bind fun p =>
  (getNext w ptr).bind fun n =>
  (setNext w p n).bind fun w1 =>
  (getNext w1 ptr).bind fun n1 =>
  (getPrev w1 ptr).bind fun p1 =>
  setPrev w1 n1 p1

/-- Member `erase(const_iterator)` (lines 326-336). -/
def erase {α : Type} (w : World α) (l : ListObj) (ptr : Nat) : Res (World α × ListObj) :=
  match unlink w ptr with
  | none => Res.ub
  | some w1 =>
    match destroy w1 l.alloc_ ptr with
    | none => Res.ub
    | some w2 =>
      match iter_inc (deallocate w2 l.alloc_ ptr 1) (end_iter l) with
      | none => Res.ub
      | some b =>
        Res.ok (deallocate w2 l.alloc_ ptr 1,
          { l with sz_ := (l.sz_ + 2 ^ 64 - 1) % 2 ^ 64, begin_ := b })

/-- Member `push_back(const T&)` (lines 338-340). -/
def push_back {α : Type} (T : ValueType α) (w : World α) (l : ListObj) (v : α) :
    Res (World α × ListObj) :=
  insert T w l (end_iter l) v

/-- Member `push_back()` (lines 342-344). -/
def push_back_default {α : Type} (T : ValueType α) (w : World α) (l : ListObj) :
    Res (World α × ListObj) :=
  insert_default T w l (end_iter l)

/-- Member `push_front(const T&)` (lines 346-348). -/
def push_front {α : Type} (T : ValueType α) (w : World α) (l : ListObj) (v : α) :
    Res (World α × ListObj) :=
  insert T w l (begin_iter l) v

/-- Member `push_front()` (lines 350-352). -/
def push_front_default {α : Type} (T : ValueType α) (w : World α) (l : ListObj) :
    Res (World α × ListObj) :=
  insert_default T w l (begin_iter l)

/-- Member `pop_back()` (lines 354-356): `erase(--end())`. -/
def pop_back {α : Type} (w : World α) (l : ListObj) : Res (World α × ListObj) :=
  match iter_dec w (end_iter l) with
  | none => Res.ub
  | some p => erase w l p

/-- Member `pop_front()` (lines 358-360). -/
def pop_front {α : Type} (w : World α) (l : ListObj) : Res (World α × ListObj) :=
  erase w l (begin_iter l)

/-- The loop `while (size() > 0) pop_back();` (lines 191-193, 203-205, 228-229). -/
def popAll {α : Type} : Nat → World α → ListObj → Res (World α × ListObj)
  | 0, w, l => if size l > 0 then Res.fuel else Res.ok (w, l)
  | k + 1, w, l =>
    if size l > 0 then
      match pop_back w l with
      | Res.ok s => popAll k s.1 s.2
      | r => r
    else Res.ok (w, l)

/-- The loop `for (const auto& elem : another) push_back(elem);` (lines 198-200,
224-226), from iterator `it` up to `e`. -/
def copyLoop {α : Type} (T : ValueType α) :
    Nat → World α → ListObj → Nat → Nat → Res (World α × ListObj)
  | 0, w, l, it, e => if it = e then Res.ok (w, l) else Res.fuel
  | k + 1, w, l, it, e =>
    if it = e then Res.ok (w, l)
    else
      match getVal w it with
      | none => Res.ub
      | some elem =>
        match push_back T w l elem with
        | Res.ok s =>
          match iter_inc s.1 it with
          | none => Res.ub
          | some it1 => copyLoop T k s.1 s.2 it1 e
        | r => r

/-- Copy constructor `List(const List&)` (lines 196-208).  The allocator of the
copy is `select_on_container_copy_construction(another.alloc_)`, which for an
allocator without that member is a copy of the argument. -/
def copy_ctor {α : Type} (T : ValueType α) (fuel : Nat) (w : World α) (another : ListObj) :
    Res (World α × ListObj) :=
  match copyLoop T fuel (ctor w another.alloc_).1 (ctor w another.alloc_).2
      (begin_iter another) (end_iter another) with
  | Res.thrown s =>
    match popAll (size s.2) s.1 s.2 with
    | Res.ok s1 => Res.thrown s1
    | r => r
  | r => r

/-- Line 221, `head_ = BaseNode();`: a temporary sentinel is built (self-linked
at its own address), its two members are copied into `head_`, and the
temporary ends with the full expression. -/
def resetHead {α : Type} (w : World α) (head : Nat) : Option (World α) :=
  (getNext
    { w with
      fresh := w.fresh + 1,
      live := Function.update w.live w.fresh true,
      next_ := Function.update w.next_ w.fresh w.fresh,
      prev_ := Function.update w.prev_ w.fresh w.fresh,
      val := Function.update w.val w.fresh none } w.fresh).bind fun tn =>
  (setNext
    { w with
      fresh := w.fresh + 1,
      live := Function.update w.live w.fresh true,
      next_ := Function.update w.next_ w.fresh w.fresh,
      prev_ := Function.update w.prev_ w.fresh w.fresh,
      val := Function.update w.val w.fresh none } head tn).bind fun w1 =>
  (getPrev w1 w.fresh).bind fun tp =>
  (setPrev w1 head tp).bind fun w2 =>
  some { w2 with live := Function.update w2.live w.fresh false }

/-- The loop of lines 237-239: destroy the value of every node from `it` up to
`e`. -/
def destroyRange {α : Type} : Nat → World α → Nat → Nat → Nat → Res (World α)
  | 0, w, _, it, e => if it = e then Res.ok w else Res.fuel
  | k + 1, w, alloc, it, e =>
    if it = e then Res.ok w
    else
      match destroy w alloc it with
      | none => Res.ub
      | some w1 =>
        match iter_inc w1 it with
        | none => Res.ub
        | some it1 => destroyRange k w1 alloc it1 e

/-- Lines 228-235, the handler of `operator=`. -/
def rollback {α : Type} (w : World α) (l : ListObj) (old_sz old_next old_prev old_alloc : Nat) :
    Res (World α × ListObj) :=
  match popAll (size l) w l with
  | Res.ok s =>
    match (setNext s.1 l.head_ old_next).bind fun w1 => setPrev w1 l.head_ old_prev with
    | none => Res.ub
    | some w2 =>
      match iter_inc w2 l.head_ with
      | none => Res.ub
      | some b =>
        Res.thrown (w2, { s.2 with sz_ := old_sz, alloc_ := old_alloc, end_ := l.head_, begin_ := b })
  | r => r

/-- Copy assignment `operator=` (lines 210-242).  `pocca` is
`propagate_on_container_copy_assignment::value`.  When `another` is the object
itself, the loop reads the members as they stand after the reset. -/
def op_assign {α : Type} (T : ValueType α) (pocca : Bool) (fuel : Nat) (w : World α)
    (l another : ListObj) : Res (World α × ListObj) :=
  match getNext w l.head_, getPrev w l.head_ with
  | some old_next, some old_prev =>
    match resetHead w l.head_ with
    | none => Res.ub
    | some w1 =>
      match iter_inc w1 l.head_ with
      | none => Res.ub
      | some b =>
        match copyLoop T fuel w1
            { l with
              alloc_ := if pocca then another.alloc_ else l.alloc_,
              sz_ := 0, end_ := l.head_, begin_ := b }
            (if another.head_ = l.head_ then b else begin_iter another)
            (if another.head_ = l.head_ then l.head_ else end_iter another) with
        | Res.thrown s => rollback s.1 s.2 l.sz_ old_next old_prev l.alloc_
        | Res.ok s =>
          match destroyRange fuel s.1 l.alloc_ l.begin_ l.end_ with
          | Res.ok w2 => Res.ok (deallocate w2 l.alloc_ l.begin_ l.sz_, s.2)
          | Res.fuel => Res.fuel
          | _ => Res.ub
        | r => r
  | _, _ => Res.ub

/-- Traversal `for (it = cur; it != stop; ++it)` collecting `*it`, at most the
given number of steps. -/
def walk {α : Type} (w : World α) (stop : Nat) : Nat → Nat → Option (List α)
  | 0, cur => if cur = stop then some [] else none
  | k + 1, cur =>
    if cur = stop then some []
    else
      match getVal w cur, iter_inc w cur with
      | some v, some nx => (walk w stop k nx).map fun vs => v :: vs
      | _, _ => none

/-- The front-to-back element sequence: from `begin()` to `end()` by `++`,
visiting exactly `size()` payload nodes. -/
def toList {α : Type} (w : World α) (l : ListObj) : Option (List α) :=
  walk w (end_iter l) (size l) (begin_iter l)

/-- Well-formed list: `ns` are the payload nodes front to back and `xs` their
values.  The sentinel and the payload nodes are live, pairwise distinct objects
at addresses already handed out, linked as one ring through `next_` and
`prev_`; `sz_` counts the payload nodes, `end_` is the sentinel and `begin_`
is the cached `head_.next_`. -/
structure WF {α : Type} (w : World α) (l : ListObj) (ns : List Nat) (xs : List α) : Prop where
  nodup : (l.head_ :: ns).Nodup
  below : ∀ a ∈ l.head_ :: ns, a < w.fresh
  alive : ∀ a ∈ l.head_ :: ns, w.live a = true
  nexts : (l.head_ :: ns).map w.next_ = ns ++ [l.head_]
  prevs : (ns ++ [l.head_]).map w.prev_ = l.head_ :: ns
  vals : ns.map w.val = xs.map some
  sz : l.sz_ = ns.length
  small : ns.length < 2 ^ 64
  end_eq : l.end_ = l.head_
  begin_eq : l.begin_ = w.next_ l.head_

/-- Every object that existed in `w` outside the addresses `S` has the same
members in `w1`. -/
def Frame {α : Type} (w w1 : World α) (S : List Nat) : Prop :=
  w.fresh ≤ w1.fresh ∧
  ∀ a, a < w.fresh → a ∉ S →
    w1.live a = w.live a ∧ w1.next_ a = w.next_ a ∧ w1.prev_ a = w.prev_ a ∧ w1.val a = w.val a

/-- The four boundary operations of the list. -/
inductive Op (α : Type) where
  | push_back (v : α)
  | push_front (v : α)
  | pop_back
  | pop_front

/-- One boundary operation applied to a list object. -/
def step {α : Type} (T : ValueType α) (s : World α × ListObj) : Op α → Res (World α × ListObj)
  | Op.push_back v => push_back T s.1 s.2 v
  | Op.push_front v => push_front T s.1 s.2 v
  | Op.pop_back => pop_back s.1 s.2
  | Op.pop_front => pop_front s.1 s.2

/-- A sequence of boundary operations, stopping at the first that does not
return. -/
def runOps {α : Type} (T : ValueType α) :
    List (Op α) → World α × ListObj → Res (World α × ListObj)
  | [], s => Res.ok s
  | op :: ops, s =>
    match step T s op with
    | Res.ok s1 => runOps T ops s1
    | r => r

/-- Reference sequence of one operation: append, prepend, drop the last, drop
the first; a pop of the empty sequence is not allowed. -/
def refStep {α : Type} (xs : List α) : Op α → Option (List α)
  | Op.push_back v => some (xs ++ [v])
  | Op.push_front v => some (v :: xs)
  | Op.pop_back => match xs with
    | [] => none
    | _ :: _ => some xs.dropLast
  | Op.pop_front => match xs with
    | [] => none
    | _ :: t => some t

/-- Reference sequence of a run of operations. -/
def refRun {α : Type} : List α → List (Op α) → Option (List α)
  | xs, [] => some xs
  | xs, op :: ops => (refStep xs op).bind fun ys => refRun ys ops

/-- Number of pushes in a run. -/
def pushes {α : Type} : List (Op α) → Nat
  | [] => 0
  | Op.push_back _ :: ops => pushes ops + 1
  | Op.push_front _ :: ops => pushes ops + 1
  | _ :: ops => pushes ops

/-- Number of pops in a run. -/
def pops {α : Type} : List (Op α) → Nat
  | [] => 0
  | Op.pop_back :: ops => pops ops + 1
  | Op.pop_front :: ops => pops ops + 1
  | _ :: ops => pops ops

/-- Values pushed by a run. -/
def pushed {α : Type} : List (Op α) → List α
  | [] => []
  | Op.push_back v :: ops => v :: pushed ops
  | Op.push_front v :: ops => v :: pushed ops
  | _ :: ops => pushed ops

/-- The state a member function leaves when it returns normally. -/
def Res.returned {σ : Type} : Res σ → Option σ
  | Res.ok s => some s
  | _ => none

/-- The state a member function leaves when an exception propagates. -/
def Res.raised {σ : Type} : Res σ → Option σ
  | Res.thrown s => some s
  | _ => none

/-- An `int`-like element whose constructors never throw. -/
def plainInt : ValueType Int := { copyThrows := fun _ => false, dflt := some 0 }

/-- A test element: the default constructor builds `-1`, and copying a negative
value throws. -/
def bombInt : ValueType Int := { copyThrows := fun v => decide (v < 0), dflt := some (-1) }

/-- The iterator reached from `begin()` by `k` applications of `++`. -/
def iterAt {α : Type} (w : World α) (l : ListObj) : Nat → Option Nat
  | 0 => some (begin_iter l)
  | k + 1 => (iterAt w l k).bind (iter_inc w)

/-- A two-element list `[10, 20]` laid out by hand: sentinel at `0`, payload
nodes at `1` and `2`. -/
def demoWorld : World Int :=
  { live := fun a => decide (a < 3),
    next_ := fun a => if a = 0 then 1 else if a = 1 then 2 else 0,
    prev_ := fun a => if a = 0 then 2 else if a = 1 then 0 else 1,
    val := fun a => if a = 1 then some 10 else if a = 2 then some 20 else none,
    fresh := 3,
    log := [Event.allocate 0 2 1, Event.allocate 0 1 1] }

/-- The list object of `demoWorld`. -/
def demoList : ListObj := { sz_ := 2, head_ := 0, alloc_ := 0, end_ := 0, begin_ := 1 }

/-- Whether a member function ran into undefined behaviour. -/
def Res.isUb {σ : Type} : Res σ → Bool
  | Res.ub => true
  | _ => false

/-- An empty list, default-constructed in an empty memory. -/
def emptyList : World Int × ListObj := ctor (World.empty Int) 0

/-- The list `[1, -1]`: `push_back(1)` then `push_back()` on `emptyList`. -/
def bombSource : Option (World Int × ListObj) :=
  (push_back bombInt emptyList.1 emptyList.2 1).returned.bind fun s =>
    (push_back_default bombInt s.1 s.2).returned

/-- The list `[-1]`: `push_back()` on `emptyList`. -/
def bombSingle : Option (World Int × ListObj) :=
  (push_back_default bombInt emptyList.1 emptyList.2).returned

/-- A second list, holding `vs`, constructed next to the list of state `s`. -/
def withTarget (s : World Int × ListObj) (vs : List Int) : Option (World Int × ListObj) :=
  (runOps bombInt (vs.map Op.push_back) (ctor s.1 0)).returned

/-- Memory right after line 221 on a live sentinel `head`: both links of the
sentinel hold the address `w.fresh` of the temporary, which is no longer live. -/
def afterReset {α : Type} (w : World α) (head : Nat) : World α :=
  { live := Function.update w.live w.fresh false,
    next_ := Function.update (Function.update w.next_ w.fresh w.fresh) head w.fresh,
    prev_ := Function.update (Function.update w.prev_ w.fresh w.fresh) head w.fresh,
    val := Function.update w.val w.fresh none,
    fresh := w.fresh + 1,
    log := w.log }

/-- A mutation of a list through an iterator at index `i` from `begin()`. -/
inductive Mut (α : Type) where
  | insert (i : Nat) (v : α)
  | erase (i : Nat)
  | assign (i : Nat) (v : α)

/-- One mutation: the iterator is `begin()` advanced `i` times, then
`insert(it, v)`, `erase(it)` or `*it = v`. -/
def mutate {α : Type} (T : ValueType α) (s : World α × ListObj) :
    Mut α → Res (World α × ListObj)
  | Mut.insert i v =>
    match iterAt s.1 s.2 i with
    | none => Res.ub
    | some p => insert T s.1 s.2 p v
  | Mut.erase i =>
    match iterAt s.1 s.2 i with
    | none => Res.ub
    | some p => erase s.1 s.2 p
  | Mut.assign i v =>
    match iterAt s.1 s.2 i with
    | none => Res.ub
    | some p =>
      match setVal s.1 p v with
      | none => Res.ub
      | some w => Res.ok (w, s.2)

/-- A sequence of mutations, stopping at the first that does not return. -/
def runMuts {α : Type} (T : ValueType α) :
    List (Mut α) → World α × ListObj → Res (World α × ListObj)
  | [], s => Res.ok s
  | m :: ms, s =>
    match mutate T s m with
    | Res.ok s1 => runMuts T ms s1
    | r => r

/-- Reference sequence of one mutation; `none` when the index is not a valid
position (for insert, `|xs|` is `end()`). -/
def refMut {α : Type} (xs : List α) : Mut α → Option (List α)
  | Mut.insert i v => if i ≤ xs.length then some (xs.take i ++ v :: xs.drop i) else none
  | Mut.erase i => if i < xs.length then some (xs.eraseIdx i) else none
  | Mut.assign i v => if i < xs.length then some (xs.set i v) else none

/-- Reference sequence of a run of mutations. -/
def refMuts {α : Type} : List α → List (Mut α) → Option (List α)
  | xs, [] => some xs
  | xs, m :: ms => (refMut xs m).bind fun ys => refMuts ys ms

/-- Values inserted by a run of mutations. -/
def inserted {α : Type} : List (Mut α) → List α
  | [] => []
  | Mut.insert _ v :: ms => v :: inserted ms
  | _ :: ms => inserted ms

/-- Destructor `~List()` (lines 190-194): pops from the back while `size() > 0`. -/
def dtor {α : Type} (w : World α) (l : ListObj) : Res (World α × ListObj) :=
  popAll (size l) w l

/-- The two allocator events of one `erase` of node `p`, newest first. -/
def releaseEvents (alloc p : Nat) : List Event :=
  [Event.deallocate alloc p 1, Event.destroy alloc p]

/-- The class `StackStorage<N>` (lines 4-14): `pool` is the address of the
buffer `char pool[N]`, `cap` the template parameter `N`, `top` the cursor and
`size` the member handed to `std::align` as the remaining space. -/
structure StackStorage where
  pool : Nat
  cap : Nat
  top : Nat
  size : Nat
deriving DecidableEq, Repr

/-- Default member initialisers of `StackStorage` (lines 8-9): `top = &pool`,
`size = N`. -/
def StackStorage.init (pool cap : Nat) : StackStorage :=
  { pool := pool, cap := cap, top := pool, size := cap }

/-- What `StackAllocator<T, N>` uses of its element type: `sizeof(T)` and
`alignof(T)`. -/
structure ElemType where
  sizeof : Nat
  alignof : Nat
deriving DecidableEq, Repr

/-- The first multiple of `a` at or after the address `p`. -/
def alignUp (p a : Nat) : Nat := (p + a - 1) / a * a

/-- Library function `std::align(alignment, size, ptr, space)` of `<memory>`,
called on line 52, as the C++ standard words it: when `size` bytes aligned by
`alignment` fit into the `space` bytes at `ptr`, the result is the first such
address together with `space` lowered by the bytes used for alignment;
otherwise `none` (a null pointer, `ptr` and `space` untouched). -/
def std_align (alignment size ptr space : Nat) : Option (Nat × Nat) :=
  if size ≤ space ∧ alignUp ptr alignment - ptr ≤ space - size then
    some (alignUp ptr alignment, space - (alignUp ptr alignment - ptr))
  else none

/-- Data member of `StackAllocator<T, N>` (line 20): `memory`, the address of
the storage it is bound to.  The element type is a template parameter and has
no run-time part. -/
structure StackAllocator where
  memory : Nat
deriving DecidableEq, Repr

/-- Constructor `StackAllocator(StackStorage<N>&)` (line 28). -/
def StackAllocator.bind (storage : Nat) : StackAllocator := { memory := storage }

/-- Converting constructor `StackAllocator(const StackAllocator<U, N>&)`
(lines 23-24), also what `rebind<U>::other` is built with. -/
def StackAllocator.convert (another : StackAllocator) : StackAllocator :=
  { memory := another.memory }

/-- Converting assignment `operator=(const StackAllocator<U, N>&)` (lines 30-34). -/
def StackAllocator.assign (self another : StackAllocator) : StackAllocator :=
  { self with memory := another.memory }

/-- Comparison `operator==` (lines 36-39). -/
def StackAllocator.eq (self another : StackAllocator) : Bool :=
  self.memory == another.memory

/-- Comparison `operator!=` (lines 41-44). -/
def StackAllocator.ne (self another : StackAllocator) : Bool :=
  self.memory != another.memory

/-- Member `allocate(int n)` (lines 51-55) on the storage `*memory`, for
`n >= 0`: the new storage state and the returned pointer (`none` for the null
pointer `std::align` gives when the request does not fit `size`).  The byte
count `sizeof(T) * n` is a `size_t`. -/
def StackAllocator.allocate (T : ElemType) (s : StackStorage) (n : Nat) :
    StackStorage × Option Nat :=
  match std_align T.alignof ((T.sizeof * n) % 2 ^ 64) s.top s.size with
  | some r => ({ s with top := r.1 + n * T.sizeof, size := r.2 }, some r.1)
  | none => ({ s with top := s.top + n * T.sizeof }, none)

/-- Member `deallocate(T* ptr, int n)` (lines 57-61) on the storage `*memory`. -/
def StackAllocator.deallocate (T : ElemType) (s : StackStorage) (ptr n : Nat) :
    StackStorage :=
  if ptr + n * T.sizeof = s.top then { s with top := ptr } else s

/-- A run of `allocate` calls with no `deallocate` in between: the final
storage and the returned pointers, in call order. -/
def allocRun : StackStorage → List (ElemType × Nat) → StackStorage × List (Option Nat)
  | s, [] => (s, [])
  | s, r :: rs =>
    ((allocRun (StackAllocator.allocate r.1 s r.2).1 rs).1,
      (StackAllocator.allocate r.1 s r.2).2 ::
        (allocRun (StackAllocator.allocate r.1 s r.2).1 rs).2)

/-- Every request of the run fits between the cursor and the end of the
buffer, and every alignment is positive. -/
def fitsRun : StackStorage → List (ElemType × Nat) → Prop
  | _, [] => True
  | s, r :: rs =>
    0 < r.1.alignof ∧ alignUp s.top r.1.alignof + r.2 * r.1.sizeof ≤ s.pool + s.cap ∧
      fitsRun (StackAllocator.allocate r.1 s r.2).1 rs

/-- A storage in use: the cursor lies in `[pool, pool + N]`, the `size` member
is not below the distance from the cursor to the end of the buffer, and `N`
is a `size_t`. -/
def ArenaOk (s : StackStorage) : Prop :=
  s.pool ≤ s.top ∧ s.top ≤ s.pool + s.cap ∧ s.pool + s.cap ≤ s.top + s.size ∧
    s.cap < 2 ^ 64

/-- A one-byte element type (`char`). -/
def charType : ElemType := { sizeof := 1, alignof := 1 }

/-- An eight-byte element type aligned to eight (`long`, a pointer). -/
def wordType : ElemType := { sizeof := 8, alignof := 8 }

/-- A 24-byte element type aligned to eight, such as `List<int>::Node`. -/
def nodeType : ElemType := { sizeof := 24, alignof := 8 }

/-- Whether a storage is in use can be computed. -/
instance decArenaOk (s : StackStorage) : Decidable (ArenaOk s) := by
  unfold ArenaOk
  infer_instance

/-- Whether a run of requests fits can be computed. -/
instance decFitsRun : (s : StackStorage) → (reqs : List (ElemType × Nat)) →
    Decidable (fitsRun s reqs)
  | _, [] => isTrue trivial
  | s, r :: rs =>
    have := decFitsRun (StackAllocator.allocate r.1 s r.2).1 rs
    by unfold fitsRun; infer_instance
/-- A fresh 1024-byte storage at address 4096 after one `char` was allocated:
the cursor is at 4097. -/
def arenaAfterChar : StackStorage :=
  (StackAllocator.allocate charType (StackStorage.init 4096 1024) 1).1

/-- The byte range `[address, address + n * sizeof(T))` of a served request. -/
def blockEnd (x : Nat × ElemType × Nat) : Nat := x.1 + x.2.2 * x.2.1.sizeof

/-- An iterator advanced by `k` applications of `++`. -/
def advance {α : Type} (w : World α) (it : Nat) : Nat → Option Nat
  | 0 => some it
  | k + 1 => (advance w it k).bind (iter_inc w)

/-- A test element whose default constructor throws and whose copy of a
negative value throws. -/
def throwingInt : ValueType Int := { copyThrows := fun v => decide (v < 0), dflt := none }

/-- Two requests of no elements for an eight-byte type. -/
def emptyRequests : List (ElemType × Nat) := [(wordType, 0), (wordType, 0)]

/-- Line 221, `head_ = BaseNode();`, as the compiled code runs it: the
temporary sentinel is built (self-linked at its own address) and its two
members are copied into `head_`, but its storage, a slot in the frame of
`operator=`, stays in place and addressable until the call returns. -/
def resetHeadKept {α : Type} (w : World α) (head : Nat) : Option (World α) :=
  (getNext
    { w with
      fresh := w.fresh + 1,
      live := Function.update w.live w.fresh true,
      next_ := Function.update w.next_ w.fresh w.fresh,
      prev_ := Function.update w.prev_ w.fresh w.fresh,
      val := Function.update w.val w.fresh none } w.fresh).bind fun tn =>
  (setNext
    { w with
      fresh := w.fresh + 1,
      live := Function.update w.live w.fresh true,
      next_ := Function.update w.next_ w.fresh w.fresh,
      prev_ := Function.update w.prev_ w.fresh w.fresh,
      val := Function.update w.val w.fresh none } head tn).bind fun w1 =>
  (getPrev w1 w.fresh).bind fun tp =>
  setPrev w1 head tp

/-- Copy assignment `operator=` (lines 210-242) with the effect of line 221 on
memory given by `reset`; `op_assign` is this function with `resetHead`. -/
def op_assign_with {α : Type} (reset : World α → Nat → Option (World α)) (T : ValueType α)
    (pocca : Bool) (fuel : Nat) (w : World α) (l another : ListObj) :
    Res (World α × ListObj) :=
  match getNext w l.head_, getPrev w l.head_ with
  | some old_next, some old_prev =>
    match reset w l.head_ with
    | none => Res.ub
    | some w1 =>
      match iter_inc w1 l.head_ with
      | none => Res.ub
      | some b =>
        match copyLoop T fuel w1
            { l with
              alloc_ := if pocca then another.alloc_ else l.alloc_,
              sz_ := 0, end_ := l.head_, begin_ := b }
            (if another.head_ = l.head_ then b else begin_iter another)
            (if another.head_ = l.head_ then l.head_ else end_iter another) with
        | Res.thrown s => rollback s.1 s.2 l.sz_ old_next old_prev l.alloc_
        | Res.ok s =>
          match destroyRange fuel s.1 l.alloc_ l.begin_ l.end_ with
          | Res.ok w2 => Res.ok (deallocate w2 l.alloc_ l.begin_ l.sz_, s.2)
          | Res.fuel => Res.fuel
          | _ => Res.ub
        | r => r
  | _, _ => Res.ub

/-- Copy assignment `operator=` (lines 210-242) as the compiled code runs it:
the statements of `op_assign`, with the storage of the temporary of line 221
left addressable (`resetHeadKept`). -/
def op_assign_kept {α : Type} (T : ValueType α) (pocca : Bool) (fuel : Nat) (w : World α)
    (l another : ListObj) : Res (World α × ListObj) :=
  op_assign_with resetHeadKept T pocca fuel w l another

/-- The state `insert` computes when the position and its predecessor are live
objects other than the new node. -/
theorem insertWith_ok {α : Type} (w : World α) (l : ListObj) (ptr : Nat) (v : α)
    (hp : w.live ptr = true) (hq : w.live (w.prev_ ptr) = true)
    (hfp : ptr ≠ w.fresh) (hfq : w.prev_ ptr ≠ w.fresh) (he : w.live l.end_ = true)
    (hfe : l.end_ ≠ w.fresh) :
    insertWith w l ptr (some v) = Res.ok
      ({ live := Function.update w.live w.fresh true,
         next_ := Function.update (Function.update w.next_ w.fresh ptr) (w.prev_ ptr) w.fresh,
         prev_ := Function.update (Function.update w.prev_ w.fresh (w.prev_ ptr)) ptr w.fresh,
         val := Function.update w.val w.fresh (some v),
         fresh := w.fresh + 1,
         log := Event.allocate l.alloc_ w.fresh 1 :: w.log },
       { l with
         sz_ := (l.sz_ + 1) % 2 ^ 64,
         begin_ := Function.update (Function.update w.next_ w.fresh ptr) (w.prev_ ptr) w.fresh
           l.end_ }) := by
  simp [insertWith, allocate, construct, linkBefore, setNext, setPrev, getPrev, getNext,
    iter_inc, end_iter, Function.update_noteq, hp, hq, hfp, hfq, he, hfe, Ne.symm hfp,
    Ne.symm hfq, Ne.symm hfe]


theorem map_update_not_mem {β : Type} (f : Nat → β) (k : Nat) (v : β) (L : List Nat)
    (hk : k ∉ L) : L.map (Function.update f k v) = L.map f := by
  apply List.map_congr_left
  intro a ha
  have : a ≠ k := fun h => hk (h ▸ ha)
  simp [Function.update_noteq this]

theorem map_splice_after (f : Nat → Nat) {A0 A B B1 : List Nat} {x y nn : Nat}
    (h : (A0 ++ x :: B).map f = A ++ y :: B1) (hl : A0.length = A.length)
    (hx0 : x ∉ A0) (hxB : x ∉ B) (hn0 : nn ∉ A0) (hnB : nn ∉ B) (hne : nn ≠ x) :
    (A0 ++ x :: nn :: B).map (Function.update (Function.update f nn y) x nn)
      = A ++ nn :: y :: B1 := by
  rw [List.map_append, List.map_cons] at h
  obtain ⟨h1, h2⟩ := List.append_inj h (by simpa using hl)
  obtain ⟨_, h4⟩ := List.cons_eq_cons.mp h2
  simp [map_update_not_mem, hx0, hxB, hn0, hnB, hne, h1, h4]

theorem map_splice_before (g : Nat → Nat) {A0 A B B1 : List Nat} {x y nn : Nat}
    (h : (A ++ y :: B1).map g = A0 ++ x :: B) (hl : A.length = A0.length)
    (hyA : y ∉ A) (hyB : y ∉ B1) (hnA : nn ∉ A) (hnB : nn ∉ B1) (hne : nn ≠ y) :
    (A ++ nn :: y :: B1).map (Function.update (Function.update g nn x) y nn)
      = A0 ++ x :: nn :: B := by
  rw [List.map_append, List.map_cons] at h
  obtain ⟨h1, h2⟩ := List.append_inj h (by simpa using hl)
  obtain ⟨_, h4⟩ := List.cons_eq_cons.mp h2
  simp [map_update_not_mem, hyA, hyB, hnA, hnB, hne, h1, h4]

theorem map_unsplice_after (f : Nat → Nat) {A0 A B B1 : List Nat} {x p q s : Nat}
    (h : (A0 ++ x :: p :: B).map f = A ++ q :: s :: B1) (hl : A0.length = A.length)
    (hx0 : x ∉ A0) (hxB : x ∉ B) :
    (A0 ++ x :: B).map (Function.update f x s) = A ++ s :: B1 := by
  rw [List.map_append, List.map_cons, List.map_cons] at h
  obtain ⟨h1, h2⟩ := List.append_inj h (by simpa using hl)
  obtain ⟨_, h3⟩ := List.cons_eq_cons.mp h2
  obtain ⟨_, h4⟩ := List.cons_eq_cons.mp h3
  simp [map_update_not_mem, hx0, hxB, h1, h4]

theorem map_unsplice_before (g : Nat → Nat) {A0 A B B1 : List Nat} {x p q s : Nat}
    (h : (A ++ p :: s :: B1).map g = A0 ++ x :: q :: B) (hl : A.length = A0.length)
    (hsA : s ∉ A) (hsB : s ∉ B1) :
    (A ++ s :: B1).map (Function.update g s x) = A0 ++ x :: B := by
  rw [List.map_append, List.map_cons, List.map_cons] at h
  obtain ⟨h1, h2⟩ := List.append_inj h (by simpa using hl)
  obtain ⟨_, h3⟩ := List.cons_eq_cons.mp h2
  obtain ⟨_, h4⟩ := List.cons_eq_cons.mp h3
  simp [map_update_not_mem, hsA, hsB, h1, h4]

theorem cons_eq_snoc (h : Nat) (A : List Nat) :
    ∃ A0 pred, h :: A = A0 ++ [pred] ∧ A0.length = A.length := by
  induction A generalizing h with
  | nil => exact ⟨[], h, rfl, rfl⟩
  | cons a A ih =>
    obtain ⟨A0, pred, h1, h2⟩ := ih a
    exact ⟨h :: A0, pred, by simp [h1], by simp [h2]⟩

theorem snoc_eq_cons (B : List Nat) (h : Nat) :
    ∃ p B1, B ++ [h] = p :: B1 ∧ B1.length = B.length := by
  cases B with
  | nil => exact ⟨h, [], rfl, rfl⟩
  | cons b B => exact ⟨b, B ++ [h], rfl, by simp⟩

/-- The state `erase` computes when the node and its two neighbours are live
and the node holds a value. -/
theorem erase_ok {α : Type} (w : World α) (l : ListObj) (ptr : Nat)
    (hp : w.live ptr = true) (hq : w.live (w.prev_ ptr) = true)
    (hn : w.live (w.next_ ptr) = true) (hqp : w.prev_ ptr ≠ ptr)
    (hv : (w.val ptr).isSome = true) (he : w.live l.end_ = true) (hep : l.end_ ≠ ptr) :
    erase w l ptr = Res.ok
      ({ live := if ptr ∈ outstanding w.log then Function.update w.live ptr false else w.live,
         next_ := Function.update w.next_ (w.prev_ ptr) (w.next_ ptr),
         prev_ := Function.update w.prev_ (w.next_ ptr) (w.prev_ ptr),
         val := Function.update w.val ptr none,
         fresh := w.fresh,
         log := Event.deallocate l.alloc_ ptr 1 :: Event.destroy l.alloc_ ptr :: w.log },
       { l with
         sz_ := (l.sz_ + 2 ^ 64 - 1) % 2 ^ 64,
         begin_ := Function.update w.next_ (w.prev_ ptr) (w.next_ ptr) l.end_ }) := by
  have hlive : (if ptr ∈ outstanding w.log then Function.update w.live ptr false else w.live)
      l.end_ = true := by
    split <;> simp [Function.update_noteq hep, he]
  simp [erase, unlink, destroy, deallocate, setNext, setPrev, getPrev, getNext, iter_inc,
    end_iter, outstanding, Function.update_noteq, hp, hq, hn, Ne.symm hqp, hv, hlive]



theorem mem_rot (a h : Nat) (ns : List Nat) : a ∈ ns ++ [h] ↔ a ∈ h :: ns := by
  simp only [List.mem_append, List.mem_cons, List.mem_singleton, List.not_mem_nil, or_false]
  tauto

/-- Insert before the first node of `B` (the sentinel when `B` is empty) keeps
the ring well formed, with the new node between `A` and `B`; nothing outside
the ring changes. -/
theorem WF_insertWith {α : Type} {w : World α} {l : ListObj} {A B : List Nat} {X Y : List α}
    (v : α) (hwf : WF w l (A ++ B) (X ++ Y)) (hXA : X.length = A.length)
    (hsmall : (A ++ B).length + 1 < 2 ^ 64) {ptr : Nat} {B1 : List Nat}
    (hB : B ++ [l.head_] = ptr :: B1) :
    ∃ w' l', insertWith w l ptr (some v) = Res.ok (w', l') ∧
      WF w' l' (A ++ w.fresh :: B) (X ++ v :: Y) ∧
      Frame w w' (l.head_ :: (A ++ B)) ∧
      l'.head_ = l.head_ ∧ l'.alloc_ = l.alloc_ ∧ l'.sz_ = l.sz_ + 1 ∧
      w'.fresh = w.fresh + 1 ∧
      w'.log = Event.allocate l.alloc_ w.fresh 1 :: w.log := by
  obtain ⟨A0, pred, hA, hlenA⟩ := cons_eq_snoc l.head_ A
  have hcyc : l.head_ :: (A ++ B) = A0 ++ pred :: B := by
    rw [← List.cons_append, hA]; simp
  have hrot : (A ++ B) ++ [l.head_] = A ++ ptr :: B1 := by
    rw [List.append_assoc, hB]
  have hnexts := hwf.nexts
  have hprevs := hwf.prevs
  have hnodup := hwf.nodup
  rw [hcyc, hrot] at hnexts
  rw [hcyc, hrot] at hprevs
  have hnodup2 : (A ++ ptr :: B1).Nodup := by
    rw [← hrot]
    exact (List.perm_append_singleton _ _).nodup_iff.mpr hnodup
  rw [hcyc] at hnodup
  -- prev ptr = pred
  have hpp : w.prev_ ptr = pred := by
    have h := hprevs
    rw [List.map_append, List.map_cons] at h
    obtain ⟨_, h2⟩ := List.append_inj h (by simpa using hlenA.symm)
    exact (List.cons_eq_cons.mp h2).1
  have hptr_mem : ptr ∈ l.head_ :: (A ++ B) := by
    have : ptr ∈ (A ++ B) ++ [l.head_] := by rw [hrot]; simp
    exact (mem_rot _ _ _).mp this
  have hpred_mem : pred ∈ l.head_ :: (A ++ B) := by rw [hcyc]; simp
  have hhead_mem : l.head_ ∈ l.head_ :: (A ++ B) := by simp
  have hfresh : ∀ a ∈ l.head_ :: (A ++ B), a ≠ w.fresh := fun a ha =>
    Nat.ne_of_lt (hwf.below a ha)
  have hnn : w.fresh ∉ l.head_ :: (A ++ B) := fun h => hfresh _ h rfl
  have hnn1 := hnn
  rw [hcyc] at hnn1
  have hnn2 : w.fresh ∉ A ++ ptr :: B1 := by
    rw [← hrot]
    intro h
    exact hnn ((mem_rot _ _ _).mp h)
  refine ⟨_, _, insertWith_ok w l ptr v (hwf.alive _ hptr_mem) (by rw [hpp]; exact hwf.alive _ hpred_mem)
    (hfresh _ hptr_mem) (by rw [hpp]; exact hfresh _ hpred_mem)
    (by rw [hwf.end_eq]; exact hwf.alive _ hhead_mem)
    (by rw [hwf.end_eq]; exact hfresh _ hhead_mem), ?_, ?_, rfl, rfl, ?_, rfl, rfl⟩
  · constructor
    · -- nodup
      show (l.head_ :: (A ++ w.fresh :: B)).Nodup
      have : (l.head_ :: (A ++ w.fresh :: B)).Perm (w.fresh :: l.head_ :: (A ++ B)) := by
        rw [← List.cons_append, ← List.cons_append]
        exact List.perm_middle
      exact this.nodup_iff.mpr (List.nodup_cons.mpr ⟨hnn, hwf.nodup⟩)
    · intro a ha
      show a < w.fresh + 1
      simp only [List.mem_cons, List.mem_append] at ha
      rcases ha with rfl | ha | rfl | ha
      · exact Nat.lt_succ_of_lt (hwf.below _ (by simp))
      · exact Nat.lt_succ_of_lt (hwf.below _ (by simp [ha]))
      · exact Nat.lt_succ_self _
      · exact Nat.lt_succ_of_lt (hwf.below _ (by simp [ha]))
    · intro a ha
      show Function.update w.live w.fresh true a = true
      by_cases h : a = w.fresh
      · subst h; exact Function.update_same _ _ _
      · rw [Function.update_noteq h]
        apply hwf.alive
        simp only [List.mem_cons, List.mem_append] at ha ⊢
        tauto
    · show (l.head_ :: (A ++ w.fresh :: B)).map _ = (A ++ w.fresh :: B) ++ [l.head_]
      have e1 : l.head_ :: (A ++ w.fresh :: B) = A0 ++ pred :: w.fresh :: B := by
        rw [← List.cons_append, hA]; simp
      have e2 : (A ++ w.fresh :: B) ++ [l.head_] = A ++ w.fresh :: ptr :: B1 := by
        rw [List.append_assoc, List.cons_append, hB]
      rw [e1, e2, hpp]
      have hd := List.nodup_append.mp hnodup
      have hd2 := List.nodup_cons.mp hd.2.1
      simp only [List.mem_append, List.mem_cons, not_or] at hnn1
      exact map_splice_after w.next_ hnexts hlenA
        (fun h => hd.2.2 h (by simp)) hd2.1 hnn1.1 hnn1.2.2 hnn1.2.1
    · show ((A ++ w.fresh :: B) ++ [l.head_]).map _ = l.head_ :: (A ++ w.fresh :: B)
      have e1 : l.head_ :: (A ++ w.fresh :: B) = A0 ++ pred :: w.fresh :: B := by
        rw [← List.cons_append, hA]; simp
      have e2 : (A ++ w.fresh :: B) ++ [l.head_] = A ++ w.fresh :: ptr :: B1 := by
        rw [List.append_assoc, List.cons_append, hB]
      rw [e1, e2, hpp]
      have hd := List.nodup_append.mp hnodup2
      have hd2 := List.nodup_cons.mp hd.2.1
      simp only [List.mem_append, List.mem_cons, not_or] at hnn2
      exact map_splice_before w.prev_ hprevs hlenA.symm
        (fun h => hd.2.2 h (by simp)) hd2.1 hnn2.1 hnn2.2.2 hnn2.2.1
    · show (A ++ w.fresh :: B).map (Function.update w.val w.fresh (some v))
        = (X ++ v :: Y).map some
      have h := hwf.vals
      rw [List.map_append, List.map_append] at h
      obtain ⟨h1, h2⟩ := List.append_inj h (by simpa using hXA.symm)
      simp only [List.mem_cons, List.mem_append, not_or] at hnn
      simp [map_update_not_mem, hnn.2.1, hnn.2.2, h1, h2]
    · show (l.sz_ + 1) % 2 ^ 64 = (A ++ w.fresh :: B).length
      rw [hwf.sz, Nat.mod_eq_of_lt hsmall]; simp; omega
    · show (A ++ w.fresh :: B).length < 2 ^ 64
      simp at hsmall ⊢; omega
    · exact hwf.end_eq
    · show _ = Function.update (Function.update w.next_ w.fresh ptr) (w.prev_ ptr) w.fresh l.head_
      rw [hwf.end_eq]
  · refine ⟨Nat.le_succ _, ?_⟩
    intro a ha hS
    have h1 : a ≠ w.fresh := Nat.ne_of_lt ha
    have h2 : a ≠ ptr := fun h => hS (h ▸ hptr_mem)
    have h3 : a ≠ w.prev_ ptr := fun h => hS (by rw [h, hpp]; exact hpred_mem)
    simp [Function.update_noteq, h1, h2, h3]
  · show (l.sz_ + 1) % 2 ^ 64 = l.sz_ + 1
    rw [hwf.sz]; exact Nat.mod_eq_of_lt hsmall


/-- Erase of the payload node `p` keeps the ring well formed on the remaining
nodes; nothing outside the ring changes. -/
theorem WF_erase {α : Type} {w : World α} {l : ListObj} {A B : List Nat} {X Y : List α}
    {p : Nat} {x : α} (hwf : WF w l (A ++ p :: B) (X ++ x :: Y)) (hXA : X.length = A.length) :
    ∃ w' l', erase w l p = Res.ok (w', l') ∧
      WF w' l' (A ++ B) (X ++ Y) ∧
      Frame w w' (l.head_ :: (A ++ p :: B)) ∧
      l'.head_ = l.head_ ∧ l'.alloc_ = l.alloc_ ∧ l'.sz_ + 1 = l.sz_ ∧
      w'.fresh = w.fresh ∧
      w'.log = Event.deallocate l.alloc_ p 1 :: Event.destroy l.alloc_ p :: w.log := by
  obtain ⟨A0, pred, hA, hlenA⟩ := cons_eq_snoc l.head_ A
  obtain ⟨succ, B1, hB, _⟩ := snoc_eq_cons B l.head_
  have hcyc : l.head_ :: (A ++ p :: B) = A0 ++ pred :: p :: B := by
    rw [← List.cons_append, hA]; simp
  have hrot : (A ++ p :: B) ++ [l.head_] = A ++ p :: succ :: B1 := by
    rw [List.append_assoc, List.cons_append, hB]
  have hcyc' : l.head_ :: (A ++ B) = A0 ++ pred :: B := by
    rw [← List.cons_append, hA]; simp
  have hrot' : (A ++ B) ++ [l.head_] = A ++ succ :: B1 := by
    rw [List.append_assoc, hB]
  have hnexts := hwf.nexts
  have hprevs := hwf.prevs
  have hnodup := hwf.nodup
  rw [hcyc, hrot] at hnexts
  rw [hcyc, hrot] at hprevs
  have hnodup2 : (A ++ p :: succ :: B1).Nodup := by
    rw [← hrot]
    exact (List.perm_append_singleton _ _).nodup_iff.mpr hnodup
  rw [hcyc] at hnodup
  have hpp : w.prev_ p = pred := by
    have h := hprevs
    rw [List.map_append, List.map_cons] at h
    obtain ⟨_, h2⟩ := List.append_inj h (by simpa using hlenA.symm)
    exact (List.cons_eq_cons.mp h2).1
  have hpn : w.next_ p = succ := by
    have h := hnexts
    rw [List.map_append, List.map_cons, List.map_cons] at h
    obtain ⟨_, h2⟩ := List.append_inj h (by simpa using hlenA)
    exact (List.cons_eq_cons.mp (List.cons_eq_cons.mp h2).2).1
  have hvals := hwf.vals
  rw [List.map_append, List.map_append, List.map_cons, List.map_cons] at hvals
  obtain ⟨hv1, hv2⟩ := List.append_inj hvals (by simpa using hXA.symm)
  obtain ⟨hv3, hv4⟩ := List.cons_eq_cons.mp hv2
  have hp_mem : p ∈ l.head_ :: (A ++ p :: B) := by simp
  have hpred_mem : pred ∈ l.head_ :: (A ++ p :: B) := by rw [hcyc]; simp
  have hsucc_mem : succ ∈ l.head_ :: (A ++ p :: B) := by
    have : succ ∈ (A ++ p :: B) ++ [l.head_] := by rw [hrot]; simp
    exact (mem_rot _ _ _).mp this
  have hhead_mem : l.head_ ∈ l.head_ :: (A ++ p :: B) := by simp
  have hd := List.nodup_append.mp hnodup
  have hd1 := List.nodup_cons.mp hd.2.1
  have he := List.nodup_append.mp hnodup2
  have he1 := List.nodup_cons.mp he.2.1
  have he2 := List.nodup_cons.mp he1.2
  have hpredp : pred ≠ p := fun h => hd1.1 (by simp [h])
  have hp_notin : p ∉ l.head_ :: (A ++ B) := by
    have h0 := List.nodup_cons.mp hwf.nodup
    have h1 := List.nodup_append.mp h0.2
    have h2 := List.nodup_cons.mp h1.2.1
    simp only [List.mem_cons, List.mem_append, not_or]
    refine ⟨fun h => h0.1 (by simp [h]), fun h => h1.2.2 h (by simp), h2.1⟩
  have hsub : ∀ a ∈ l.head_ :: (A ++ B), a ∈ l.head_ :: (A ++ p :: B) := by
    intro a ha
    simp only [List.mem_cons, List.mem_append] at ha ⊢
    tauto
  have hheadp : l.head_ ≠ p := fun h => hp_notin (by simp [h])
  refine ⟨_, _, erase_ok w l p (hwf.alive _ hp_mem) (by rw [hpp]; exact hwf.alive _ hpred_mem)
    (by rw [hpn]; exact hwf.alive _ hsucc_mem) (by rw [hpp]; exact hpredp)
    (by rw [hv3]; rfl) (by rw [hwf.end_eq]; exact hwf.alive _ hhead_mem)
    (by rw [hwf.end_eq]; exact hheadp), ?_, ?_, rfl, rfl, ?_, rfl, rfl⟩
  · constructor
    · show (l.head_ :: (A ++ B)).Nodup
      exact List.Sublist.nodup
        (List.Sublist.cons₂ _ (List.Sublist.append_left (List.sublist_cons_self p B) A))
        hwf.nodup
    · intro a ha
      exact hwf.below a (hsub a ha)
    · intro a ha
      have hap : a ≠ p := fun h => hp_notin (h ▸ ha)
      show (if p ∈ outstanding w.log then Function.update w.live p false else w.live) a = true
      split
      · rw [Function.update_noteq hap]; exact hwf.alive a (hsub a ha)
      · exact hwf.alive a (hsub a ha)
    · show (l.head_ :: (A ++ B)).map _ = (A ++ B) ++ [l.head_]
      rw [hcyc', hrot', hpp, hpn]
      exact map_unsplice_after w.next_ hnexts hlenA
        (fun h => hd.2.2 h (by simp)) (fun h => hd1.1 (List.mem_cons_of_mem _ h))
    · show ((A ++ B) ++ [l.head_]).map _ = l.head_ :: (A ++ B)
      rw [hcyc', hrot', hpp, hpn]
      exact map_unsplice_before w.prev_ hprevs hlenA.symm
        (fun h => he.2.2 h (by simp)) he2.1
    · show (A ++ B).map (Function.update w.val p none) = (X ++ Y).map some
      simp only [List.mem_cons, List.mem_append, not_or] at hp_notin
      simp [map_update_not_mem, hp_notin.2.1, hp_notin.2.2, hv1, hv4]
    · show (l.sz_ + 2 ^ 64 - 1) % 2 ^ 64 = (A ++ B).length
      have := hwf.small
      rw [hwf.sz]
      simp only [List.length_append, List.length_cons] at this ⊢
      rw [show A.length + (B.length + 1) + 2 ^ 64 - 1 = (A.length + B.length) + 2 ^ 64 by omega,
        Nat.add_mod_right, Nat.mod_eq_of_lt (by omega)]
    · have := hwf.small
      simp only [List.length_append, List.length_cons] at this ⊢
      omega
    · exact hwf.end_eq
    · show _ = Function.update w.next_ (w.prev_ p) (w.next_ p) l.head_
      rw [hwf.end_eq]
  · refine ⟨Nat.le_refl _, ?_⟩
    intro a _ hS
    have h1 : a ≠ p := fun h => hS (h ▸ hp_mem)
    have h2 : a ≠ w.prev_ p := fun h => hS (by rw [h, hpp]; exact hpred_mem)
    have h3 : a ≠ w.next_ p := fun h => hS (by rw [h, hpn]; exact hsucc_mem)
    refine ⟨?_, ?_, ?_, ?_⟩
    · show (if p ∈ outstanding w.log then Function.update w.live p false else w.live) a = _
      split
      · rw [Function.update_noteq h1]
      · rfl
    · show Function.update w.next_ (w.prev_ p) (w.next_ p) a = _
      rw [Function.update_noteq h2]
    · show Function.update w.prev_ (w.next_ p) (w.prev_ p) a = _
      rw [Function.update_noteq h3]
    · show Function.update w.val p none a = _
      rw [Function.update_noteq h1]
  · show (l.sz_ + 2 ^ 64 - 1) % 2 ^ 64 + 1 = l.sz_
    have := hwf.small
    rw [hwf.sz]
    simp only [List.length_append, List.length_cons] at this ⊢
    rw [show A.length + (B.length + 1) + 2 ^ 64 - 1 = (A.length + B.length) + 2 ^ 64 by omega,
      Nat.add_mod_right, Nat.mod_eq_of_lt (by omega)]
    omega


/-- Following `next_` along a chain that ends in `h` collects the values of
the chain in as many steps as it has nodes. -/
theorem walk_chain {α : Type} (w : World α) (h : Nat) :
    ∀ (P : List Nat) (vs : List α) (a : Nat),
      (a :: P).map w.next_ = P ++ [h] → P.map w.val = vs.map some →
      (∀ b ∈ P, w.live b = true) → h ∉ P →
      walk w h P.length (w.next_ a) = some vs := by
  intro P
  induction P with
  | nil =>
    intro vs a hn hv _ _
    have hvs : vs = [] := by simpa using hv.symm
    have : w.next_ a = h := by simpa using hn
    simp [walk, this, hvs]
  | cons b P ih =>
    intro vs a hn hv hl hh
    rw [List.map_cons, List.cons_append] at hn
    obtain ⟨hab, hn'⟩ := List.cons_eq_cons.mp hn
    cases vs with
    | nil => simp at hv
    | cons v vs =>
      rw [List.map_cons, List.map_cons] at hv
      obtain ⟨hbv, hv'⟩ := List.cons_eq_cons.mp hv
      have hbh : b ≠ h := fun e => hh (by simp [e])
      have hlb : w.live b = true := hl b (by simp)
      have hrec := ih vs b hn' hv' (fun c hc => hl c (List.mem_cons_of_mem _ hc))
        (fun e => hh (List.mem_cons_of_mem _ e))
      simp [walk, hab, hbh, getVal, iter_inc, getNext, hlb, hbv, hrec]

/-- The traversal of a well-formed list yields its element sequence. -/
theorem toList_of_WF {α : Type} {w : World α} {l : ListObj} {ns : List Nat} {xs : List α}
    (hwf : WF w l ns xs) : toList w l = some xs := by
  unfold toList end_iter size begin_iter
  rw [hwf.end_eq, hwf.sz, hwf.begin_eq]
  exact walk_chain w l.head_ ns xs l.head_ hwf.nexts hwf.vals
    (fun b hb => hwf.alive b (List.mem_cons_of_mem _ hb))
    (List.nodup_cons.mp hwf.nodup).1

/-- A default-constructed list is well formed and empty. -/
theorem WF_ctor {α : Type} (w : World α) (alloc : Nat) :
    WF (ctor w alloc).1 (ctor w alloc).2 [] ([] : List α) := by
  constructor <;> simp [ctor]

/-- A well-formed list stays well formed when its own nodes are untouched. -/
theorem WF_frame {α : Type} {w w' : World α} {l : ListObj} {ns : List Nat} {xs : List α}
    {S : List Nat} (hwf : WF w l ns xs) (hf : Frame w w' S)
    (hd : ∀ a ∈ l.head_ :: ns, a ∉ S) : WF w' l ns xs := by
  have key : ∀ a ∈ l.head_ :: ns,
      w'.live a = w.live a ∧ w'.next_ a = w.next_ a ∧ w'.prev_ a = w.prev_ a ∧
        w'.val a = w.val a :=
    fun a ha => hf.2 a (hwf.below a ha) (hd a ha)
  constructor
  · exact hwf.nodup
  · exact fun a ha => Nat.lt_of_lt_of_le (hwf.below a ha) hf.1
  · exact fun a ha => (key a ha).1.trans (hwf.alive a ha)
  · rw [← hwf.nexts]
    exact List.map_congr_left fun a ha => (key a ha).2.1
  · rw [← hwf.prevs]
    exact List.map_congr_left fun a ha => (key a ((mem_rot _ _ _).mp ha)).2.2.1
  · rw [← hwf.vals]
    exact List.map_congr_left fun a ha => (key a (List.mem_cons_of_mem _ ha)).2.2.2
  · exact hwf.sz
  · exact hwf.small
  · exact hwf.end_eq
  · rw [hwf.begin_eq, (key l.head_ (by simp)).2.1]

theorem WF_lengths {α : Type} {w : World α} {l : ListObj} {ns : List Nat} {xs : List α}
    (hwf : WF w l ns xs) : xs.length = ns.length := by
  have h := congrArg List.length hwf.vals
  simpa using h.symm

theorem insert_eq_insertWith {α : Type} (T : ValueType α) (w : World α) (l : ListObj)
    (p : Nat) (v : α) (hv : T.copyThrows v = false) :
    insert T w l p v = insertWith w l p (some v) := by
  simp [insert, hv]

theorem push_back_spec {α : Type} (T : ValueType α) {w : World α} {l : ListObj}
    {ns : List Nat} {xs : List α} (v : α) (hwf : WF w l ns xs)
    (hv : T.copyThrows v = false) (hs : ns.length + 1 < 2 ^ 64) :
    ∃ w' l', push_back T w l v = Res.ok (w', l') ∧
      WF w' l' (ns ++ [w.fresh]) (xs ++ [v]) ∧
      Frame w w' (l.head_ :: ns) ∧
      l'.head_ = l.head_ ∧ l'.alloc_ = l.alloc_ ∧ l'.sz_ = l.sz_ + 1 ∧
      w'.fresh = w.fresh + 1 ∧
      w'.log = Event.allocate l.alloc_ w.fresh 1 :: w.log := by
  have hwf' : WF w l (ns ++ []) (xs ++ []) := by simpa using hwf
  have h := WF_insertWith v hwf' (WF_lengths hwf) (by simpa using hs)
    (show [] ++ [l.head_] = l.end_ :: [] by rw [hwf.end_eq]; rfl)
  simpa [push_back, end_iter, insert_eq_insertWith T w l _ v hv] using h

theorem push_front_spec {α : Type} (T : ValueType α) {w : World α} {l : ListObj}
    {ns : List Nat} {xs : List α} (v : α) (hwf : WF w l ns xs)
    (hv : T.copyThrows v = false) (hs : ns.length + 1 < 2 ^ 64) :
    ∃ w' l', push_front T w l v = Res.ok (w', l') ∧
      WF w' l' (w.fresh :: ns) (v :: xs) ∧
      Frame w w' (l.head_ :: ns) ∧
      l'.head_ = l.head_ ∧ l'.alloc_ = l.alloc_ ∧ l'.sz_ = l.sz_ + 1 ∧
      w'.fresh = w.fresh + 1 ∧
      w'.log = Event.allocate l.alloc_ w.fresh 1 :: w.log := by
  have hwf' : WF w l ([] ++ ns) ([] ++ xs) := by simpa using hwf
  have hB : ns ++ [l.head_] = l.begin_ :: ns.map w.next_ := by
    rw [hwf.begin_eq, ← hwf.nexts]; rfl
  have h := WF_insertWith v hwf' rfl (by simpa using hs) hB
  simpa [push_front, begin_iter, insert_eq_insertWith T w l _ v hv] using h

theorem pop_back_spec {α : Type} {w : World α} {l : ListObj}
    {A : List Nat} {X : List α} {p : Nat} {x : α} (hwf : WF w l (A ++ [p]) (X ++ [x])) :
    ∃ w' l', pop_back w l = Res.ok (w', l') ∧
      WF w' l' A X ∧
      Frame w w' (l.head_ :: (A ++ [p])) ∧
      l'.head_ = l.head_ ∧ l'.alloc_ = l.alloc_ ∧ l'.sz_ + 1 = l.sz_ ∧
      w'.fresh = w.fresh ∧
      w'.log = Event.deallocate l.alloc_ p 1 :: Event.destroy l.alloc_ p :: w.log := by
  have hlen : X.length = A.length := by
    have := WF_lengths hwf
    simpa using this
  have hprev : w.prev_ l.head_ = p := by
    have h := hwf.prevs
    rw [List.map_append, List.map_append] at h
    have h' : (A.map w.prev_ ++ [w.prev_ p]) ++ [w.prev_ l.head_] = (l.head_ :: A) ++ [p] := by
      simpa using h
    exact List.singleton_inj.mp (List.append_inj' h' rfl).2
  have hlive : w.live l.head_ = true := hwf.alive _ (by simp)
  have h := WF_erase hwf hlen
  simpa [pop_back, iter_dec, end_iter, getPrev, hwf.end_eq, hlive, hprev] using h

theorem pop_front_spec {α : Type} {w : World α} {l : ListObj}
    {B : List Nat} {Y : List α} {p : Nat} {x : α} (hwf : WF w l (p :: B) (x :: Y)) :
    ∃ w' l', pop_front w l = Res.ok (w', l') ∧
      WF w' l' B Y ∧
      Frame w w' (l.head_ :: p :: B) ∧
      l'.head_ = l.head_ ∧ l'.alloc_ = l.alloc_ ∧ l'.sz_ + 1 = l.sz_ ∧
      w'.fresh = w.fresh ∧
      w'.log = Event.deallocate l.alloc_ p 1 :: Event.destroy l.alloc_ p :: w.log := by
  have hnext : l.begin_ = p := by
    have h := hwf.nexts
    rw [List.map_cons, List.cons_append] at h
    rw [hwf.begin_eq]
    exact (List.cons_eq_cons.mp h).1
  have hwf' : WF w l ([] ++ p :: B) ([] ++ x :: Y) := by simpa using hwf
  have h := WF_erase hwf' rfl
  simpa [pop_front, begin_iter, hnext] using h

/-- A run of boundary operations from a well-formed list follows the
reference sequence and ends in a well-formed list. -/
theorem runOps_spec {α : Type} (T : ValueType α) :
    ∀ (ops : List (Op α)) (w : World α) (l : ListObj) (ns : List Nat) (xs ys : List α),
      WF w l ns xs → (∀ v ∈ pushed ops, T.copyThrows v = false) →
      refRun xs ops = some ys → ns.length + ops.length < 2 ^ 64 →
      ∃ w' l' ns', runOps T ops (w, l) = Res.ok (w', l') ∧ WF w' l' ns' ys ∧
        l'.sz_ + pops ops = l.sz_ + pushes ops := by
  intro ops
  induction ops with
  | nil =>
    intro w l ns xs ys hwf _ href _
    simp only [refRun, Option.some.injEq] at href
    subst href
    exact ⟨w, l, ns, rfl, hwf, rfl⟩
  | cons op ops ih =>
    intro w l ns xs ys hwf hthrow href hlen
    simp only [List.length_cons] at hlen
    cases op with
    | push_back v =>
      simp only [refRun, refStep, Option.some_bind] at href
      have hv : T.copyThrows v = false := hthrow v (by simp [pushed])
      obtain ⟨w1, l1, h1, hwf1, _, _, _, hsz, _, _⟩ :=
        push_back_spec T v hwf hv (by omega)
      obtain ⟨w2, l2, ns2, h2, hwf2, hcount⟩ := ih w1 l1 _ _ ys hwf1
        (fun u hu => hthrow u (by simp [pushed, hu])) href (by simp; omega)
      refine ⟨w2, l2, ns2, ?_, hwf2, ?_⟩
      · simp [runOps, step, h1, h2]
      · simp only [pops, pushes]; omega
    | push_front v =>
      simp only [refRun, refStep, Option.some_bind] at href
      have hv : T.copyThrows v = false := hthrow v (by simp [pushed])
      obtain ⟨w1, l1, h1, hwf1, _, _, _, hsz, _, _⟩ :=
        push_front_spec T v hwf hv (by omega)
      obtain ⟨w2, l2, ns2, h2, hwf2, hcount⟩ := ih w1 l1 _ _ ys hwf1
        (fun u hu => hthrow u (by simp [pushed, hu])) href (by simp; omega)
      refine ⟨w2, l2, ns2, ?_, hwf2, ?_⟩
      · simp [runOps, step, h1, h2]
      · simp only [pops, pushes]; omega
    | pop_back =>
      cases xs with
      | nil => simp [refRun, refStep] at href
      | cons x0 xs0 =>
        simp only [refRun, refStep, Option.some_bind] at href
        have hlen2 := WF_lengths hwf
        obtain ⟨X, x, hX⟩ : ∃ X x, x0 :: xs0 = X ++ [x] := by
          rcases List.eq_nil_or_concat (x0 :: xs0) with h | ⟨X, x, h⟩
          · simp at h
          · exact ⟨X, x, by simpa using h⟩
        obtain ⟨A, p, hA⟩ : ∃ A p, ns = A ++ [p] := by
          rcases List.eq_nil_or_concat ns with h | ⟨A, p, h⟩
          · subst h; simp at hlen2
          · exact ⟨A, p, by simpa using h⟩
        rw [hX] at hwf href
        subst hA
        rw [List.dropLast_concat] at href
        obtain ⟨w1, l1, h1, hwf1, _, _, _, hsz, _, _⟩ := pop_back_spec hwf
        obtain ⟨w2, l2, ns2, h2, hwf2, hcount⟩ := ih w1 l1 _ _ ys hwf1
          (fun u hu => hthrow u (by simp [pushed, hu])) href (by simp at hlen ⊢; omega)
        refine ⟨w2, l2, ns2, ?_, hwf2, ?_⟩
        · simp [runOps, step, h1, h2]
        · simp only [pops, pushes]; omega
    | pop_front =>
      cases xs with
      | nil => simp [refRun, refStep] at href
      | cons x0 xs0 =>
        simp only [refRun, refStep, Option.some_bind] at href
        have hlen2 := WF_lengths hwf
        cases ns with
        | nil => simp at hlen2
        | cons p B =>
          obtain ⟨w1, l1, h1, hwf1, _, _, _, hsz, _, _⟩ := pop_front_spec hwf
          obtain ⟨w2, l2, ns2, h2, hwf2, hcount⟩ := ih w1 l1 _ _ ys hwf1
            (fun u hu => hthrow u (by simp [pushed, hu])) href (by simp at hlen ⊢; omega)
          refine ⟨w2, l2, ns2, ?_, hwf2, ?_⟩
          · simp [runOps, step, h1, h2]
          · simp only [pops, pushes]; omega

/-- C1: any run of push_back / push_front / pop_back / pop_front on a
default-constructed list, every pop meeting a non-empty list and no pushed
value throwing on copy, returns; afterwards `size()` is the number of pushes
minus the number of pops, and the traversal from `begin()` to `end()` yields
the reference sequence (append, prepend, drop last, drop first). -/
theorem push_pop_sequence {α : Type} (T : ValueType α) (w0 : World α) (alloc : Nat)
    (ops : List (Op α)) (xs : List α)
    (hthrow : ∀ v ∈ pushed ops, T.copyThrows v = false)
    (href : refRun [] ops = some xs) (hlen : ops.length < 2 ^ 64) :
    ∃ w l, runOps T ops (ctor w0 alloc) = Res.ok (w, l) ∧
      pops ops ≤ pushes ops ∧ size l = pushes ops - pops ops ∧ toList w l = some xs := by
  obtain ⟨w, l, ns, h, hwf, hcount⟩ :=
    runOps_spec T ops (ctor w0 alloc).1 (ctor w0 alloc).2 [] [] xs (WF_ctor w0 alloc)
      hthrow href (by simpa using hlen)
  have hz : (ctor w0 alloc).2.sz_ = 0 := rfl
  rw [hz] at hcount
  refine ⟨w, l, h, by omega, by unfold size; omega, toList_of_WF hwf⟩

/-- Witness for C1 on the run push_back 1, push_front 2, pop_back. -/
theorem push_pop_sequence_witness :
    ∃ w l, runOps plainInt [Op.push_back 1, Op.push_front 2, Op.pop_back]
        (ctor (World.empty Int) 0) = Res.ok (w, l) ∧
      pops [Op.push_back (1 : Int), Op.push_front 2, Op.pop_back]
        ≤ pushes [Op.push_back (1 : Int), Op.push_front 2, Op.pop_back] ∧
      size l = pushes [Op.push_back (1 : Int), Op.push_front 2, Op.pop_back]
        - pops [Op.push_back (1 : Int), Op.push_front 2, Op.pop_back] ∧
      toList w l = some [2] :=
  push_pop_sequence plainInt (World.empty Int) 0
    [Op.push_back 1, Op.push_front 2, Op.pop_back] [2]
    (by intro v _; rfl) (by decide) (by decide)

theorem split_of_getElem? {β : Type} {L : List β} {i : Nat} {p : β} (hp : L[i]? = some p) :
    L = L.take i ++ p :: L.drop (i + 1) ∧ (L.take i).length = i ∧ i < L.length := by
  obtain ⟨h, rfl⟩ := List.getElem?_eq_some.mp hp
  refine ⟨?_, ?_, h⟩
  · rw [← List.drop_eq_getElem_cons h, List.take_append_drop]
  · rw [List.length_take]; omega

/-- Insert at the position of index `i`. -/
theorem WF_insert_at {α : Type} (T : ValueType α) {w : World α} {l : ListObj}
    {ns : List Nat} {xs : List α} (v : α) (hwf : WF w l ns xs) {i p : Nat}
    (hp : (ns ++ [l.head_])[i]? = some p) (hv : T.copyThrows v = false)
    (hs : ns.length + 1 < 2 ^ 64) :
    ∃ w' l', insert T w l p v = Res.ok (w', l') ∧
      WF w' l' (ns.take i ++ w.fresh :: ns.drop i) (xs.take i ++ v :: xs.drop i) ∧
      Frame w w' (l.head_ :: ns) ∧
      l'.head_ = l.head_ ∧ l'.alloc_ = l.alloc_ ∧ l'.sz_ = l.sz_ + 1 ∧
      w'.fresh = w.fresh + 1 ∧
      w'.log = Event.allocate l.alloc_ w.fresh 1 :: w.log := by
  obtain ⟨_, _, hi⟩ := split_of_getElem? hp
  have hi' : i ≤ ns.length := by simp at hi; omega
  have hlen := WF_lengths hwf
  have hB : ns.drop i ++ [l.head_] = p :: (ns ++ [l.head_]).drop (i + 1) := by
    rw [← List.drop_append_of_le_length hi', List.drop_eq_getElem_cons hi]
    obtain ⟨_, h2⟩ := List.getElem?_eq_some.mp hp
    rw [h2]
  have hwf' : WF w l (ns.take i ++ ns.drop i) (xs.take i ++ xs.drop i) := by
    simpa [List.take_append_drop] using hwf
  have h := WF_insertWith v hwf' (by simp [List.length_take, hlen])
    (by simpa [List.take_append_drop] using hs) hB
  simpa [List.take_append_drop, insert_eq_insertWith T w l _ v hv] using h

/-- Erase at the payload node of index `i`. -/
theorem WF_erase_at {α : Type} {w : World α} {l : ListObj}
    {ns : List Nat} {xs : List α} (hwf : WF w l ns xs) {i p : Nat} (hp : ns[i]? = some p) :
    ∃ w' l', erase w l p = Res.ok (w', l') ∧
      WF w' l' (ns.eraseIdx i) (xs.eraseIdx i) ∧
      Frame w w' (l.head_ :: ns) ∧
      l'.head_ = l.head_ ∧ l'.alloc_ = l.alloc_ ∧ l'.sz_ + 1 = l.sz_ ∧
      w'.fresh = w.fresh ∧
      w'.log = Event.deallocate l.alloc_ p 1 :: Event.destroy l.alloc_ p :: w.log := by
  obtain ⟨hns, hlenA, hi⟩ := split_of_getElem? hp
  have hlen := WF_lengths hwf
  have hix : i < xs.length := by omega
  have hx : xs[i]? = some xs[i] := List.getElem?_eq_getElem hix
  obtain ⟨hxs, hlenX, _⟩ := split_of_getElem? hx
  have hwf' : WF w l (ns.take i ++ p :: ns.drop (i + 1))
      (xs.take i ++ xs[i] :: xs.drop (i + 1)) := by
    rw [← hns, ← hxs]; exact hwf
  have h := WF_erase hwf' (by rw [hlenA, hlenX])
  rw [← hns] at h
  simpa [List.eraseIdx_eq_take_drop_succ] using h

/-- The hand-built list `demoList` is well formed. -/
theorem demo_WF : WF demoWorld demoList [1, 2] [10, 20] := by
  constructor <;> decide

/-- C2: on a well-formed list with element sequence `xs`, `insert(p, v)` at the
position `p` of index `i` (index `|xs|` being `end()`) returns, the sequence
becomes `xs` with `v` inserted at index `i`, and `size()` grows by one. -/
theorem insert_at_position {α : Type} (T : ValueType α) (w : World α) (l : ListObj)
    (ns : List Nat) (xs : List α) (hwf : WF w l ns xs) (i p : Nat)
    (hp : (ns ++ [l.head_])[i]? = some p) (v : α) (hv : T.copyThrows v = false)
    (hs : ns.length + 1 < 2 ^ 64) :
    toList w l = some xs ∧
    ∃ w' l', insert T w l p v = Res.ok (w', l') ∧
      toList w' l' = some (xs.take i ++ v :: xs.drop i) ∧
      size l' = size l + 1 ∧
      WF w' l' (ns.take i ++ w.fresh :: ns.drop i) (xs.take i ++ v :: xs.drop i) := by
  obtain ⟨w', l', h, hwf', _, _, _, hsz, _, _⟩ := WF_insert_at T v hwf hp hv hs
  exact ⟨toList_of_WF hwf, w', l', h, toList_of_WF hwf', hsz, hwf'⟩

/-- Witness for C2: inserting `15` before the second element of `[10, 20]`. -/
theorem insert_at_position_witness :
    toList demoWorld demoList = some [10, 20] ∧
    ∃ w' l', insert plainInt demoWorld demoList 2 15 = Res.ok (w', l') ∧
      toList w' l' = some [10, 15, 20] ∧
      size l' = 3 ∧
      WF w' l' [1, 3, 2] [10, 15, 20] :=
  insert_at_position plainInt demoWorld demoList [1, 2] [10, 20] demo_WF 1 2 (by decide) 15
    rfl (by decide)

/-- C3: on a well-formed list with element sequence `xs`, `erase(p)` at the
payload node `p` of index `i` returns, the sequence becomes `xs` without its
`i`-th element, and `size()` shrinks by one; erasing the position of value `3`
in `[1,2,3,4,5]` gives `[1,2,4,5]` with size `4`. -/
theorem erase_at_position {α : Type} (w : World α) (l : ListObj)
    (ns : List Nat) (xs : List α) (hwf : WF w l ns xs) (i p : Nat) (hp : ns[i]? = some p) :
    (toList w l = some xs ∧
     ∃ w' l', erase w l p = Res.ok (w', l') ∧
      toList w' l' = some (xs.eraseIdx i) ∧
      size l' + 1 = size l ∧
      WF w' l' (ns.eraseIdx i) (xs.eraseIdx i)) ∧
    ((runOps plainInt
        [Op.push_back 1, Op.push_back 2, Op.push_back 3, Op.push_back 4, Op.push_back 5]
        (ctor (World.empty Int) 0)).returned.bind fun s =>
      (iterAt s.1 s.2 2).bind fun p3 =>
        (erase s.1 s.2 p3).returned.map fun s' =>
          (toList s.1 s.2, getVal s.1 p3, toList s'.1 s'.2, size s'.2))
      = some (some [1, 2, 3, 4, 5], some 3, some [1, 2, 4, 5], 4) := by
  constructor
  · obtain ⟨w', l', h, hwf', _, _, _, hsz, _, _⟩ := WF_erase_at hwf hp
    exact ⟨toList_of_WF hwf, w', l', h, toList_of_WF hwf', hsz, hwf'⟩
  · decide!

/-- Witness for C3: erasing the first element of `[10, 20]`. -/
theorem erase_at_position_witness :
    (toList demoWorld demoList = some [10, 20] ∧
     ∃ w' l', erase demoWorld demoList 1 = Res.ok (w', l') ∧
      toList w' l' = some [20] ∧
      size l' + 1 = 2 ∧
      WF w' l' [2] [20]) :=
  (erase_at_position demoWorld demoList [1, 2] [10, 20] demo_WF 0 1 (by decide)).1

/-- Members of a payload node inside a well-formed ring. -/
theorem WF_at {α : Type} {w : World α} {l : ListObj} {P R : List Nat} {XP Y : List α}
    {r : Nat} {y : α} (hwf : WF w l (P ++ r :: R) (XP ++ y :: Y))
    (hlen : XP.length = P.length) :
    w.live r = true ∧ w.val r = some y ∧ r ≠ l.head_ ∧
      R ++ [l.head_] = w.next_ r :: R.map w.next_ := by
  have hmem : r ∈ l.head_ :: (P ++ r :: R) := by simp
  refine ⟨hwf.alive r hmem, ?_, ?_, ?_⟩
  · have h := hwf.vals
    rw [List.map_append, List.map_append, List.map_cons, List.map_cons] at h
    obtain ⟨_, h2⟩ := List.append_inj h (by simpa using hlen.symm)
    exact (List.cons_eq_cons.mp h2).1
  · intro e
    exact (List.nodup_cons.mp hwf.nodup).1 (by rw [← e]; simp)
  · have h := hwf.nexts
    have e1 : l.head_ :: (P ++ r :: R) = (l.head_ :: P) ++ r :: R := rfl
    have e2 : (P ++ r :: R) ++ [l.head_] = (P ++ [r]) ++ (R ++ [l.head_]) := by simp
    rw [e1, e2, List.map_append, List.map_cons] at h
    obtain ⟨_, h2⟩ := List.append_inj h (by simp)
    exact h2.symm

theorem Frame_ctor {α : Type} (w : World α) (alloc : Nat) (S : List Nat) :
    Frame w (ctor w alloc).1 S := by
  refine ⟨Nat.le_succ _, ?_⟩
  intro a ha _
  have h : a ≠ w.fresh := Nat.ne_of_lt ha
  simp [ctor, Function.update_noteq h]

/-- The copy loop, started at the node that begins the suffix `R` of the
source, appends the values `Y` of that suffix to the destination and leaves
the source as it was. -/
theorem copyLoop_spec {α : Type} (T : ValueType α) (src : ListObj) :
    ∀ (R P : List Nat) (Y XP : List α) (fuel : Nat) (w : World α) (c : ListObj)
      (ms : List Nat) (X : List α) (it : Nat) (R1 : List Nat),
      WF w src (P ++ R) (XP ++ Y) → XP.length = P.length → WF w c ms X →
      (∀ a ∈ c.head_ :: ms, a ∉ src.head_ :: (P ++ R)) →
      R ++ [src.head_] = it :: R1 →
      (∀ y ∈ Y, T.copyThrows y = false) → R.length ≤ fuel →
      ms.length + R.length < 2 ^ 64 →
      ∃ w' c' ms', copyLoop T fuel w c it (end_iter src) = Res.ok (w', c') ∧
        WF w' c' ms' (X ++ Y) ∧ WF w' src (P ++ R) (XP ++ Y) ∧
        (∀ a ∈ c'.head_ :: ms', a ∉ src.head_ :: (P ++ R)) ∧
        c'.head_ = c.head_ ∧ c'.alloc_ = c.alloc_ ∧ c'.sz_ = c.sz_ + R.length := by
  intro R
  induction R with
  | nil =>
    intro P Y XP fuel w c ms X it R1 hsrc hlen hc hdisj hB _ _ _
    have hit : it = src.head_ := by
      simp only [List.nil_append] at hB
      exact (List.cons_eq_cons.mp hB).1.symm
    have hY : Y = [] := by
      have := WF_lengths hsrc
      simp only [List.length_append, List.append_nil] at this
      exact List.length_eq_zero.mp (by omega)
    subst hY
    refine ⟨w, c, ms, ?_, by simpa using hc, hsrc, hdisj, rfl, rfl, rfl⟩
    cases fuel <;> simp [copyLoop, end_iter, hit, hsrc.end_eq]
  | cons r R ih =>
    intro P Y XP fuel w c ms X it R1 hsrc hlen hc hdisj hB hthrow hfuel hsmall
    have hit : it = r := by
      rw [List.cons_append] at hB
      exact (List.cons_eq_cons.mp hB).1.symm
    subst hit
    cases Y with
    | nil =>
      have := WF_lengths hsrc
      simp only [List.length_append, List.append_nil, List.length_cons] at this
      omega
    | cons y Y =>
      cases fuel with
      | zero => simp at hfuel
      | succ k =>
        simp only [List.length_cons] at hfuel hsmall
        obtain ⟨hlive, hval, hne, _⟩ := WF_at hsrc hlen
        obtain ⟨w1, c1, hpush, hc1, hframe, hhead, halloc, hsz, hfresh, _⟩ :=
          push_back_spec T y hc (hthrow y (by simp)) (by omega)
        have hsrc1 : WF w1 src (P ++ it :: R) (XP ++ y :: Y) :=
          WF_frame hsrc hframe (fun a ha hmem => hdisj a hmem ha)
        obtain ⟨hlive1, _, _, hnext1⟩ := WF_at hsrc1 hlen
        have hsrc2 : WF w1 src ((P ++ [it]) ++ R) ((XP ++ [y]) ++ Y) := by
          simpa using hsrc1
        have hdisj1 : ∀ a ∈ c1.head_ :: (ms ++ [w.fresh]),
            a ∉ src.head_ :: ((P ++ [it]) ++ R) := by
          intro a ha hmem
          have hmem' : a ∈ src.head_ :: (P ++ it :: R) := by simpa using hmem
          simp only [List.mem_cons, List.mem_append, List.mem_singleton, List.not_mem_nil,
            or_false] at ha
          rcases ha with ha | ha | ha
          · exact hdisj a (by rw [ha, hhead]; simp) hmem'
          · exact hdisj a (by simp [ha]) hmem'
          · exact absurd (hsrc.below a hmem') (by rw [ha]; exact Nat.lt_irrefl _)
        obtain ⟨w2, c2, ms2, hloop, hc2, hsrc3, hdisj2, hhead2, halloc2, hsz2⟩ :=
          ih (P ++ [it]) Y (XP ++ [y]) k w1 c1 (ms ++ [w.fresh]) (X ++ [y]) (w1.next_ it)
            (R.map w1.next_) hsrc2 (by simp [hlen]) hc1 hdisj1 hnext1
            (fun z hz => hthrow z (by simp [hz])) (by omega) (by simp; omega)
        refine ⟨w2, c2, ms2, ?_, by simpa using hc2, by simpa using hsrc3, ?_,
          hhead2.trans hhead, halloc2.trans halloc, by rw [hsz2, hsz]; simp; omega⟩
        · have hne' : it ≠ end_iter src := by
            unfold end_iter; rw [hsrc.end_eq]; exact hne
          simp [copyLoop, hne', getVal, hlive, hval, hpush, iter_inc, getNext, hlive1, hloop]
        · intro a ha hmem
          exact hdisj2 a ha (by simpa using hmem)

/-- Assignment through the iterator of index `i`. -/
theorem WF_setVal_at {α : Type} {w : World α} {l : ListObj} {ns : List Nat} {xs : List α}
    (hwf : WF w l ns xs) {i p : Nat} (hp : ns[i]? = some p) (v : α) :
    ∃ w', setVal w p v = some w' ∧ WF w' l ns (xs.set i v) ∧ Frame w w' (l.head_ :: ns) := by
  obtain ⟨hns, hlenA, hi⟩ := split_of_getElem? hp
  have hlen := WF_lengths hwf
  have hix : i < xs.length := by omega
  have hx : xs[i]? = some xs[i] := List.getElem?_eq_getElem hix
  obtain ⟨hxs, hlenX, _⟩ := split_of_getElem? hx
  have hwf' : WF w l (ns.take i ++ p :: ns.drop (i + 1))
      (xs.take i ++ xs[i] :: xs.drop (i + 1)) := by
    rw [← hns, ← hxs]; exact hwf
  obtain ⟨hlive, hval, _, _⟩ := WF_at hwf' (by rw [hlenA, hlenX])
  have hpmem : p ∈ l.head_ :: ns := by rw [hns]; simp
  have hnd : (ns.take i ++ p :: ns.drop (i + 1)).Nodup := by
    rw [← hns]; exact (List.nodup_cons.mp hwf.nodup).2
  have hd := List.nodup_append.mp hnd
  have hpA : p ∉ ns.take i := fun h => hd.2.2 h (by simp)
  have hpB : p ∉ ns.drop (i + 1) := (List.nodup_cons.mp hd.2.1).1
  refine ⟨{ w with val := Function.update w.val p (some v) }, ?_, ?_, ?_⟩
  · simp [setVal, hlive, hval]
  · constructor
    · exact hwf.nodup
    · exact hwf.below
    · exact hwf.alive
    · exact hwf.nexts
    · exact hwf.prevs
    · show ns.map (Function.update w.val p (some v)) = (xs.set i v).map some
      have hv := hwf'.vals
      rw [List.map_append, List.map_append, List.map_cons, List.map_cons] at hv
      obtain ⟨h1, h2⟩ := List.append_inj hv
        (by rw [List.length_map, List.length_map, hlenA, hlenX])
      obtain ⟨_, h4⟩ := List.cons_eq_cons.mp h2
      have key : (ns.take i ++ p :: ns.drop (i + 1)).map (Function.update w.val p (some v))
          = (xs.take i ++ v :: xs.drop (i + 1)).map some := by
        rw [List.map_append, List.map_cons, List.map_append, List.map_cons,
          map_update_not_mem _ _ _ _ hpA, map_update_not_mem _ _ _ _ hpB, h1, h4,
          Function.update_same]
      rw [List.set_eq_take_append_cons_drop, if_pos hix, ← key, ← hns]
    · exact hwf.sz
    · exact hwf.small
    · exact hwf.end_eq
    · exact hwf.begin_eq
  · refine ⟨Nat.le_refl _, ?_⟩
    intro a _ hS
    have h1 : a ≠ p := fun h => hS (h ▸ hpmem)
    simp [Function.update_noteq h1]

/-- The copy constructor on a well-formed source whose elements copy without
throwing. -/
theorem copy_ctor_spec {α : Type} (T : ValueType α) {w : World α} {src : ListObj}
    {ns : List Nat} {xs : List α} (hwf : WF w src ns xs)
    (hno : ∀ x ∈ xs, T.copyThrows x = false) (fuel : Nat) (hfuel : ns.length ≤ fuel) :
    ∃ w' c ms, copy_ctor T fuel w src = Res.ok (w', c) ∧
      WF w' c ms xs ∧ WF w' src ns xs ∧
      (∀ a ∈ c.head_ :: ms, a ∉ src.head_ :: ns) ∧
      c.alloc_ = src.alloc_ ∧ c.sz_ = ns.length := by
  have hsrc0 : WF (ctor w src.alloc_).1 src ([] ++ ns) ([] ++ xs) :=
    WF_frame hwf (Frame_ctor w src.alloc_ []) (fun _ _ h => by simp at h)
  have hB : ns ++ [src.head_] = begin_iter src :: ns.map w.next_ := by
    unfold begin_iter
    rw [hwf.begin_eq, ← hwf.nexts]; rfl
  have hdisj : ∀ a ∈ (ctor w src.alloc_).2.head_ :: ([] : List Nat),
      a ∉ src.head_ :: ([] ++ ns) := by
    intro a ha hmem
    have ha' : a = w.fresh := by simpa [ctor] using ha
    exact absurd (hwf.below a (by simpa using hmem)) (by rw [ha']; exact Nat.lt_irrefl _)
  obtain ⟨w', c, ms, hloop, hc, hsrc, hd, _, halloc, hsz⟩ :=
    copyLoop_spec T src ns [] xs [] fuel (ctor w src.alloc_).1 (ctor w src.alloc_).2 [] []
      (begin_iter src) (ns.map w.next_) hsrc0 rfl (WF_ctor w src.alloc_) hdisj hB hno hfuel
      (by simpa using hwf.small)
  refine ⟨w', c, ms, ?_, by simpa using hc, by simpa using hsrc, by simpa using hd,
    halloc, by simpa [ctor] using hsz⟩
  simp [copy_ctor, hloop]

/-- Advancing `begin()` `i` times reaches the position of index `i`. -/
theorem iterAt_of_WF {α : Type} {w : World α} {l : ListObj} {ns : List Nat} {xs : List α}
    (hwf : WF w l ns xs) :
    ∀ i, i ≤ ns.length → iterAt w l i = (ns ++ [l.head_])[i]? := by
  intro i
  induction i with
  | zero =>
    intro _
    have h := hwf.nexts
    rw [List.map_cons] at h
    have : (ns ++ [l.head_])[0]? = some (w.next_ l.head_) := by rw [← h]; simp
    rw [this]
    simp [iterAt, begin_iter, hwf.begin_eq]
  | succ i ih =>
    intro hi
    have hi1 : i < (ns ++ [l.head_]).length := by simp; omega
    have hi2 : i + 1 < (ns ++ [l.head_]).length := by simp; omega
    have hi3 : i + 1 < ((l.head_ :: ns).map w.next_).length := by simp; omega
    have hi4 : i < ns.length := by omega
    rw [iterAt, ih (by omega), List.getElem?_eq_getElem hi1, List.getElem?_eq_getElem hi2]
    have hmem : (ns ++ [l.head_])[i] ∈ l.head_ :: ns :=
      (mem_rot _ _ _).mp (List.getElem_mem _)
    have hnext : w.next_ ((ns ++ [l.head_])[i]) = (ns ++ [l.head_])[i + 1] := by
      have e1 : ((l.head_ :: ns).map w.next_)[i + 1] = (ns ++ [l.head_])[i + 1] :=
        List.getElem_of_eq hwf.nexts hi3
      rw [← e1, List.getElem_map, List.getElem_cons_succ, List.getElem_append_left hi4]
    simp [iter_inc, getNext, hwf.alive _ hmem, hnext]

/-- A run of mutations of one list follows the reference sequence and leaves
a second list, on other nodes, well formed with the same nodes and values. -/
theorem runMuts_spec {α : Type} (T : ValueType α) {src : ListObj} {ns : List Nat}
    {ys : List α} :
    ∀ (muts : List (Mut α)) (w : World α) (c : ListObj) (ms : List Nat) (xs zs : List α),
      WF w c ms xs → WF w src ns ys → (∀ a ∈ src.head_ :: ns, a ∉ c.head_ :: ms) →
      (∀ v ∈ inserted muts, T.copyThrows v = false) → refMuts xs muts = some zs →
      ms.length + muts.length < 2 ^ 64 →
      ∃ w' c' ms', runMuts T muts (w, c) = Res.ok (w', c') ∧ WF w' c' ms' zs ∧
        WF w' src ns ys ∧ (∀ a ∈ src.head_ :: ns, a ∉ c'.head_ :: ms') := by
  intro muts
  induction muts with
  | nil =>
    intro w c ms xs zs hc hsrc hd _ href _
    simp only [refMuts, Option.some.injEq] at href
    subst href
    exact ⟨w, c, ms, rfl, hc, hsrc, hd⟩
  | cons m muts ih =>
    intro w c ms xs zs hc hsrc hd hthrow href hlen
    simp only [List.length_cons] at hlen
    have hxl := WF_lengths hc
    cases m with
    | insert i v =>
      simp only [refMuts, refMut] at href
      by_cases hi : i ≤ xs.length
      · rw [if_pos hi, Option.some_bind] at href
        have hit := iterAt_of_WF hc i (by omega)
        have hib : i < (ms ++ [c.head_]).length := by simp; omega
        rw [List.getElem?_eq_getElem hib] at hit
        obtain ⟨w1, c1, h1, hc1, hf, hhead, _, _, _, _⟩ :=
          WF_insert_at T v hc (List.getElem?_eq_getElem hib)
            (hthrow v (by simp [inserted])) (by omega)
        have hd1 : ∀ a ∈ src.head_ :: ns,
            a ∉ c1.head_ :: (ms.take i ++ w.fresh :: ms.drop i) := by
          intro a ha hmem
          rw [hhead] at hmem
          simp only [List.mem_cons, List.mem_append] at hmem
          rcases hmem with e | e | e | e
          · exact hd a ha (by simp [e])
          · exact hd a ha (List.mem_cons_of_mem _ (List.mem_of_mem_take e))
          · exact absurd (hsrc.below a ha) (by rw [e]; exact Nat.lt_irrefl _)
          · exact hd a ha (List.mem_cons_of_mem _ (List.mem_of_mem_drop e))
        obtain ⟨w2, c2, ms2, h2, hc2, hsrc2, hd2⟩ :=
          ih w1 c1 _ _ zs hc1 (WF_frame hsrc hf hd) hd1
            (fun u hu => hthrow u (by simp [inserted, hu])) href
            (by simp [List.length_take, List.length_drop]; omega)
        exact ⟨w2, c2, ms2, by simp [runMuts, mutate, hit, h1, h2], hc2, hsrc2, hd2⟩
      · rw [if_neg hi] at href; simp at href
    | erase i =>
      simp only [refMuts, refMut] at href
      by_cases hi : i < xs.length
      · rw [if_pos hi, Option.some_bind] at href
        have hit := iterAt_of_WF hc i (by omega)
        have hib : i < ms.length := by omega
        have hp : ms[i]? = some ms[i] := List.getElem?_eq_getElem hib
        rw [List.getElem?_append_left hib, hp] at hit
        obtain ⟨w1, c1, h1, hc1, hf, hhead, _, _, _, _⟩ := WF_erase_at hc hp
        have hd1 : ∀ a ∈ src.head_ :: ns, a ∉ c1.head_ :: ms.eraseIdx i := by
          intro a ha hmem
          rw [hhead] at hmem
          rcases List.mem_cons.mp hmem with e | e
          · exact hd a ha (by simp [e])
          · exact hd a ha (List.mem_cons_of_mem _ (List.mem_of_mem_eraseIdx e))
        obtain ⟨w2, c2, ms2, h2, hc2, hsrc2, hd2⟩ :=
          ih w1 c1 _ _ zs hc1 (WF_frame hsrc hf hd) hd1
            (fun u hu => hthrow u (by simp [inserted, hu])) href
            (by rw [List.length_eraseIdx]; split <;> omega)
        exact ⟨w2, c2, ms2, by simp [runMuts, mutate, hit, h1, h2], hc2, hsrc2, hd2⟩
      · rw [if_neg hi] at href; simp at href
    | assign i v =>
      simp only [refMuts, refMut] at href
      by_cases hi : i < xs.length
      · rw [if_pos hi, Option.some_bind] at href
        have hit := iterAt_of_WF hc i (by omega)
        have hib : i < ms.length := by omega
        have hp : ms[i]? = some ms[i] := List.getElem?_eq_getElem hib
        rw [List.getElem?_append_left hib, hp] at hit
        obtain ⟨w1, h1, hc1, hf⟩ := WF_setVal_at hc hp v
        obtain ⟨w2, c2, ms2, h2, hc2, hsrc2, hd2⟩ :=
          ih w1 c _ _ zs hc1 (WF_frame hsrc hf hd) hd
            (fun u hu => hthrow u (by simp [inserted, hu])) href (by omega)
        exact ⟨w2, c2, ms2, by simp [runMuts, mutate, hit, h1, h2], hc2, hsrc2, hd2⟩
      · rw [if_neg hi] at href; simp at href

/-- C4: copy-constructing from a well-formed source (no element copy
throwing) returns a list with the same `size()` and the same front-to-back
sequence, whose sentinel and payload nodes are all different from the source's
nodes; whatever run of inserts, erases and element assignments is then applied
to the copy, the source keeps its size and its element sequence. -/
theorem copy_ctor_independent {α : Type} (T : ValueType α) (w : World α) (src : ListObj)
    (ns : List Nat) (xs : List α) (hwf : WF w src ns xs)
    (hno : ∀ x ∈ xs, T.copyThrows x = false) (fuel : Nat) (hfuel : ns.length ≤ fuel) :
    ∃ w' c ms, copy_ctor T fuel w src = Res.ok (w', c) ∧
      size c = size src ∧ toList w' c = some xs ∧ toList w' src = some xs ∧
      WF w' c ms xs ∧ (∀ a ∈ c.head_ :: ms, a ∉ src.head_ :: ns) ∧
      ∀ (muts : List (Mut α)) (zs : List α),
        (∀ v ∈ inserted muts, T.copyThrows v = false) → refMuts xs muts = some zs →
        xs.length + muts.length < 2 ^ 64 →
        ∃ w2 c2, runMuts T muts (w', c) = Res.ok (w2, c2) ∧
          toList w2 c2 = some zs ∧ toList w2 src = some xs := by
  obtain ⟨w', c, ms, h, hc, hsrc, hd, _, hsz⟩ := copy_ctor_spec T hwf hno fuel hfuel
  have hd' : ∀ a ∈ src.head_ :: ns, a ∉ c.head_ :: ms := fun a ha hmem => hd a hmem ha
  refine ⟨w', c, ms, h, ?_, toList_of_WF hc, toList_of_WF hsrc, hc, hd, ?_⟩
  · unfold size; rw [hsz, hwf.sz]
  · intro muts zs hthrow href hlen
    obtain ⟨w2, c2, ms2, h2, hc2, hsrc2, _⟩ :=
      runMuts_spec T muts w' c ms xs zs hc hsrc hd' hthrow href
        (by rw [← WF_lengths hc]; exact hlen)
    exact ⟨w2, c2, h2, toList_of_WF hc2, toList_of_WF hsrc2⟩

/-- Witness for C4: copying the two-element list `[10, 20]`. -/
theorem copy_ctor_independent_witness :
    ∃ w' c ms, copy_ctor plainInt 2 demoWorld demoList = Res.ok (w', c) ∧
      size c = size demoList ∧ toList w' c = some [10, 20] ∧
      toList w' demoList = some [10, 20] ∧
      WF w' c ms [10, 20] ∧ (∀ a ∈ c.head_ :: ms, a ∉ demoList.head_ :: [1, 2]) ∧
      ∀ (muts : List (Mut Int)) (zs : List Int),
        (∀ v ∈ inserted muts, plainInt.copyThrows v = false) →
        refMuts [10, 20] muts = some zs →
        [10, 20].length + muts.length < 2 ^ 64 →
        ∃ w2 c2, runMuts plainInt muts (w', c) = Res.ok (w2, c2) ∧
          toList w2 c2 = some zs ∧ toList w2 demoList = some [10, 20] :=
  copy_ctor_independent plainInt demoWorld demoList [1, 2] [10, 20] demo_WF
    (by intro x _; rfl) 2 (by decide)

/-! ## Exceptions and copy assignment -/

theorem walk_congr {α : Type} {w w' : World α} (hl : w'.live = w.live)
    (hn : w'.next_ = w.next_) (hv : w'.val = w.val) (stop : Nat) :
    ∀ (k cur : Nat), walk w' stop k cur = walk w stop k cur := by
  intro k
  induction k with
  | zero => intro cur; simp [walk]
  | succ k ih => intro cur; simp [walk, getVal, iter_inc, getNext, hl, hn, hv, ih]

/-- The state `insert` leaves when the element constructor throws: one
`allocate` call, nothing else. -/
theorem insertWith_throw {α : Type} (w : World α) (l : ListObj) (p : Nat) :
    insertWith w l p none =
      Res.thrown ({ w with fresh := w.fresh + 1,
                           log := Event.allocate l.alloc_ w.fresh 1 :: w.log }, l) := by
  simp [insertWith, construct, allocate]

/-- Line 221 on a live sentinel. -/
theorem resetHead_ok {α : Type} (w : World α) (head : Nat) (hl : w.live head = true)
    (hne : head ≠ w.fresh) : resetHead w head = some (afterReset w head) := by
  simp [resetHead, afterReset, getNext, getPrev, setNext, setPrev, Function.update_noteq hne,
    Function.update_noteq (Ne.symm hne), hl]

theorem afterReset_old {α : Type} (w : World α) (head a : Nat) (ha : a ≠ w.fresh) :
    (afterReset w head).live a = w.live a ∧ (afterReset w head).val a = w.val a ∧
      (a ≠ head → (afterReset w head).next_ a = w.next_ a ∧
        (afterReset w head).prev_ a = w.prev_ a) := by
  refine ⟨?_, ?_, ?_⟩
  · simp [afterReset, Function.update_noteq ha]
  · simp [afterReset, Function.update_noteq ha]
  · intro h
    simp [afterReset, Function.update_noteq ha, Function.update_noteq h]

theorem afterReset_head {α : Type} (w : World α) (head : Nat) :
    (afterReset w head).next_ head = w.fresh ∧ (afterReset w head).prev_ head = w.fresh ∧
      (afterReset w head).live w.fresh = false ∧ (afterReset w head).fresh = w.fresh + 1 ∧
      (afterReset w head).log = w.log := by
  simp [afterReset]

/-- A `push_back` on a list whose `head_.prev_` is not a live object is
undefined: line 307 writes through it. -/
theorem push_back_dangling {α : Type} (T : ValueType α) (w : World α) (l : ListObj) (y : α)
    (hy : T.copyThrows y = false) (hlive : w.live l.end_ = true)
    (hdead : w.live (w.prev_ l.end_) = false) (hne : l.end_ ≠ w.fresh)
    (hne2 : w.prev_ l.end_ ≠ w.fresh) :
    push_back T w l y = Res.ub := by
  simp [push_back, insert, hy, insertWith, allocate, construct, linkBefore, setNext, setPrev,
    getPrev, end_iter, Function.update_noteq hne, Function.update_noteq (Ne.symm hne),
    Function.update_noteq hne2, hlive, hdead]

/-- Assignment from a non-empty list whose first element copies without
throwing is undefined: the first `push_back` writes through `head_.prev_`,
which points at the temporary of line 221. -/
theorem op_assign_nonempty_ub {α : Type} (T : ValueType α) (pocca : Bool) (fuel : Nat)
    {w : World α} {l src : ListObj} {ns R : List Nat} {xs Y : List α} {r : Nat} {y : α}
    (hl : WF w l ns xs) (hsrc : WF w src (r :: R) (y :: Y)) (hdist : src.head_ ≠ l.head_)
    (hy : T.copyThrows y = false) (hfuel : 0 < fuel) :
    op_assign T pocca fuel w l src = Res.ub := by
  have hhl : w.live l.head_ = true := hl.alive _ (by simp)
  have hhf : l.head_ ≠ w.fresh := Nat.ne_of_lt (hl.below _ (by simp))
  have hsrc' : WF w src ([] ++ r :: R) ([] ++ y :: Y) := by simpa using hsrc
  obtain ⟨hrl, hrv, hrh, _⟩ := WF_at hsrc' rfl
  have hrf : r ≠ w.fresh := Nat.ne_of_lt (hsrc.below _ (by simp))
  have hbegin : begin_iter src = r := by
    have h := hsrc.nexts
    rw [List.map_cons, List.cons_append] at h
    unfold begin_iter
    rw [hsrc.begin_eq]
    exact (List.cons_eq_cons.mp h).1
  have hre : r ≠ end_iter src := by unfold end_iter; rw [hsrc.end_eq]; exact hrh
  obtain ⟨k, rfl⟩ : ∃ k, fuel = k + 1 := ⟨fuel - 1, by omega⟩
  have h1 : getNext w l.head_ = some (w.next_ l.head_) := by simp [getNext, hhl]
  have h2 : getPrev w l.head_ = some (w.prev_ l.head_) := by simp [getPrev, hhl]
  obtain ⟨hnh, hph, hdead, hfr, _⟩ := afterReset_head w l.head_
  obtain ⟨hlh, _, _⟩ := afterReset_old w l.head_ l.head_ hhf
  obtain ⟨hlr, hvr, _⟩ := afterReset_old w l.head_ r hrf
  have h3 : iter_inc (afterReset w l.head_) l.head_ = some w.fresh := by
    simp [iter_inc, getNext, hlh, hhl, hnh]
  have h4 : ∀ L : ListObj, L.end_ = l.head_ →
      copyLoop T (k + 1) (afterReset w l.head_) L r (end_iter src) = Res.ub := by
    intro L hL
    have hpb := push_back_dangling T (afterReset w l.head_) L y hy
      (by rw [hL, hlh]; exact hhl) (by rw [hL, hph]; exact hdead)
      (by rw [hL, hfr]; exact Nat.ne_of_lt (Nat.lt_succ_of_lt (hl.below _ (by simp))))
      (by rw [hL, hph, hfr]; exact Nat.ne_of_lt (Nat.lt_succ_self _))
    simp [copyLoop, hre, getVal, hlr, hvr, hrl, hrv, hpb]
  unfold op_assign
  rw [h1, h2, resetHead_ok w l.head_ hhl hhf]
  simp only [h3, if_neg hdist, hbegin]
  rw [h4 _ rfl]

/-- The loop of lines 237-239 along a chain of live payload nodes ending in
`h`: one `destroy` call per node, in order. -/
theorem destroyRange_spec {α : Type} (alloc h : Nat) :
    ∀ (P : List Nat) (fuel : Nat) (w : World α) (it : Nat),
      P ++ [h] = it :: P.map w.next_ →
      (∀ b ∈ P, w.live b = true ∧ (w.val b).isSome = true) → h ∉ P → P.Nodup →
      P.length ≤ fuel →
      ∃ w', destroyRange fuel w alloc it h = Res.ok w' ∧
        w'.log = P.reverse.map (Event.destroy alloc) ++ w.log ∧
        w'.next_ = w.next_ ∧ w'.prev_ = w.prev_ ∧ w'.live = w.live ∧ w'.fresh = w.fresh := by
  intro P
  induction P with
  | nil =>
    intro fuel w it hch _ _ _ _
    have hit : it = h := by
      simp only [List.nil_append, List.map_nil] at hch
      exact (List.cons_eq_cons.mp hch).1.symm
    refine ⟨w, ?_, by simp, rfl, rfl, rfl, rfl⟩
    cases fuel <;> simp [destroyRange, hit]
  | cons b P ih =>
    intro fuel w it hch hlv hh hnd hfuel
    rw [List.cons_append, List.map_cons] at hch
    obtain ⟨hit, hch'⟩ := List.cons_eq_cons.mp hch
    subst hit
    cases fuel with
    | zero => simp at hfuel
    | succ k =>
      obtain ⟨hbl, hbv⟩ := hlv b (by simp)
      have hbh : b ≠ h := fun e => hh (by simp [e])
      have hnd' := List.nodup_cons.mp hnd
      obtain ⟨w2, hrec, hlog, hn, hp, hl, hf⟩ :=
        ih k { w with val := Function.update w.val b none,
                      log := Event.destroy alloc b :: w.log } (w.next_ b) hch'
          (fun c hc => by
            have hcb : c ≠ b := fun e => hnd'.1 (e ▸ hc)
            have := hlv c (List.mem_cons_of_mem _ hc)
            simpa [Function.update_noteq hcb] using this)
          (fun e => hh (List.mem_cons_of_mem _ e)) hnd'.2
          (by simp only [List.length_cons] at hfuel; omega)
      refine ⟨w2, ?_, ?_, hn, hp, hl, hf⟩
      · simp [destroyRange, hbh, destroy, hbl, hbv, iter_inc, getNext, hrec]
      · rw [hlog]; simp

/-- Assignment from an empty list returns with `head_.next_` holding the
address of the destroyed temporary, and releases the `m` old nodes by `m`
`destroy` calls followed by the single call
`deallocate(old_alloc, old_begin, old_sz)`. -/
theorem op_assign_empty_source {α : Type} (T : ValueType α) (pocca : Bool) (fuel : Nat)
    {w : World α} {l src : ListObj} {ns : List Nat} {xs : List α}
    (hl : WF w l ns xs) (hsrc : WF w src [] []) (hdist : src.head_ ≠ l.head_)
    (hfuel : ns.length ≤ fuel) :
    ∃ w', op_assign T pocca fuel w l src = Res.ok (w',
        { l with alloc_ := if pocca then src.alloc_ else l.alloc_,
                 sz_ := 0, end_ := l.head_, begin_ := w.fresh }) ∧
      w'.next_ l.head_ = w.fresh ∧ w'.live w.fresh = false ∧ l.head_ ≠ w.fresh ∧
      w'.log = Event.deallocate l.alloc_ l.begin_ l.sz_ ::
        (ns.reverse.map (Event.destroy l.alloc_) ++ w.log) := by
  have hhl : w.live l.head_ = true := hl.alive _ (by simp)
  have hhf : l.head_ ≠ w.fresh := Nat.ne_of_lt (hl.below _ (by simp))
  have h1 : getNext w l.head_ = some (w.next_ l.head_) := by simp [getNext, hhl]
  have h2 : getPrev w l.head_ = some (w.prev_ l.head_) := by simp [getPrev, hhl]
  obtain ⟨hnh, hph, hdead, hfr, hlog0⟩ := afterReset_head w l.head_
  obtain ⟨hlh, _, _⟩ := afterReset_old w l.head_ l.head_ hhf
  have h3 : iter_inc (afterReset w l.head_) l.head_ = some w.fresh := by
    simp [iter_inc, getNext, hlh, hhl, hnh]
  have hbe : begin_iter src = end_iter src := by
    unfold begin_iter end_iter
    have h := hsrc.nexts
    simp only [List.map_cons, List.map_nil, List.nil_append] at h
    rw [hsrc.begin_eq, hsrc.end_eq]
    exact (List.cons_eq_cons.mp h).1
  have h4 : ∀ L : ListObj,
      copyLoop T fuel (afterReset w l.head_) L (begin_iter src) (end_iter src)
        = Res.ok (afterReset w l.head_, L) := by
    intro L
    cases fuel <;> simp [copyLoop, hbe]
  have hchain : ns ++ [l.head_] = l.begin_ :: ns.map (afterReset w l.head_).next_ := by
    have e : ns.map (afterReset w l.head_).next_ = ns.map w.next_ := by
      apply List.map_congr_left
      intro a ha
      have haf : a ≠ w.fresh := Nat.ne_of_lt (hl.below _ (List.mem_cons_of_mem _ ha))
      have hah : a ≠ l.head_ := fun e => (List.nodup_cons.mp hl.nodup).1 (e ▸ ha)
      exact ((afterReset_old w l.head_ a haf).2.2 hah).1
    rw [e, hl.begin_eq, ← hl.nexts]; rfl
  obtain ⟨w2, hdr, hlog, hn2, _, hl2, _⟩ :=
    destroyRange_spec l.alloc_ l.head_ ns fuel (afterReset w l.head_) l.begin_ hchain
      (fun b hb => by
        have hbf : b ≠ w.fresh := Nat.ne_of_lt (hl.below _ (List.mem_cons_of_mem _ hb))
        obtain ⟨e1, e2, _⟩ := afterReset_old w l.head_ b hbf
        rw [e1, e2]
        refine ⟨hl.alive _ (List.mem_cons_of_mem _ hb), ?_⟩
        have hv := hl.vals
        have : w.val b ∈ ns.map w.val := List.mem_map_of_mem _ hb
        rw [hv] at this
        obtain ⟨x, _, hx⟩ := List.mem_map.mp this
        rw [← hx]; rfl)
      (List.nodup_cons.mp hl.nodup).1 (List.nodup_cons.mp hl.nodup).2 hfuel
  refine ⟨deallocate w2 l.alloc_ l.begin_ l.sz_, ?_, ?_, ?_, hhf, ?_⟩
  · unfold op_assign
    rw [h1, h2, resetHead_ok w l.head_ hhl hhf]
    simp only [h3, if_neg hdist, h4]
    rw [hl.end_eq] at *
    simp only [hdr]
  · show w2.next_ l.head_ = w.fresh
    rw [hn2, hnh]
  · show (if l.begin_ ∈ outstanding w2.log then Function.update w2.live l.begin_ false
      else w2.live) w.fresh = false
    split
    · by_cases e : w.fresh = l.begin_
      · rw [e, Function.update_same]
      · rw [Function.update_noteq e, hl2, hdead]
    · rw [hl2, hdead]
  · show Event.deallocate l.alloc_ l.begin_ l.sz_ :: w2.log = _
    rw [hlog, hlog0]

/-- When the copy of the first element throws, the handler of `operator=`
restores the target: the call ends in a throw, the list record is the one
before the call and the ring is well formed on the same nodes and values. -/
theorem op_assign_first_throw {α : Type} (T : ValueType α) (pocca : Bool) (fuel : Nat)
    {w : World α} {l src : ListObj} {ns R : List Nat} {xs Y : List α} {r : Nat} {y : α}
    (hl : WF w l ns xs) (hsrc : WF w src (r :: R) (y :: Y)) (hdist : src.head_ ≠ l.head_)
    (hy : T.copyThrows y = true) (hfuel : 0 < fuel) :
    ∃ w', op_assign T pocca fuel w l src = Res.thrown (w', l) ∧ WF w' l ns xs ∧
      toList w' l = some xs := by
  have hhl : w.live l.head_ = true := hl.alive _ (by simp)
  have hhf : l.head_ ≠ w.fresh := Nat.ne_of_lt (hl.below _ (by simp))
  have hsrc' : WF w src ([] ++ r :: R) ([] ++ y :: Y) := by simpa using hsrc
  obtain ⟨hrl, hrv, hrh, _⟩ := WF_at hsrc' rfl
  have hrf : r ≠ w.fresh := Nat.ne_of_lt (hsrc.below _ (by simp))
  have hbegin : begin_iter src = r := by
    have h := hsrc.nexts
    rw [List.map_cons, List.cons_append] at h
    unfold begin_iter
    rw [hsrc.begin_eq]
    exact (List.cons_eq_cons.mp h).1
  have hre : r ≠ end_iter src := by unfold end_iter; rw [hsrc.end_eq]; exact hrh
  obtain ⟨k, rfl⟩ : ∃ k, fuel = k + 1 := ⟨fuel - 1, by omega⟩
  have h1 : getNext w l.head_ = some (w.next_ l.head_) := by simp [getNext, hhl]
  have h2 : getPrev w l.head_ = some (w.prev_ l.head_) := by simp [getPrev, hhl]
  obtain ⟨hnh, hph, hdead, hfr, _⟩ := afterReset_head w l.head_
  obtain ⟨hlh, _, _⟩ := afterReset_old w l.head_ l.head_ hhf
  obtain ⟨hlr, hvr, _⟩ := afterReset_old w l.head_ r hrf
  have h3 : iter_inc (afterReset w l.head_) l.head_ = some w.fresh := by
    simp [iter_inc, getNext, hlh, hhl, hnh]
  have h4 : ∀ L : ListObj,
      copyLoop T (k + 1) (afterReset w l.head_) L r (end_iter src) =
        Res.thrown ({ afterReset w l.head_ with
          fresh := (afterReset w l.head_).fresh + 1,
          log := Event.allocate L.alloc_ (afterReset w l.head_).fresh 1 ::
            (afterReset w l.head_).log }, L) := by
    intro L
    simp [copyLoop, hre, getVal, hlr, hvr, hrl, hrv, push_back, insert, hy, insertWith_throw]
  have hrec : ListObj.mk l.sz_ l.head_ l.alloc_ l.head_ (w.next_ l.head_) = l := by
    have e1 := hl.end_eq
    have e2 := hl.begin_eq
    cases l
    simp only at e1 e2
    subst e1 e2
    rfl
  refine ⟨{ afterReset w l.head_ with
      fresh := (afterReset w l.head_).fresh + 1,
      log := Event.allocate (if pocca then src.alloc_ else l.alloc_)
        (afterReset w l.head_).fresh 1 :: (afterReset w l.head_).log,
      next_ := Function.update (afterReset w l.head_).next_ l.head_ (w.next_ l.head_),
      prev_ := Function.update (afterReset w l.head_).prev_ l.head_ (w.prev_ l.head_) },
    ?_, ?_⟩
  · unfold op_assign
    rw [h1, h2, resetHead_ok w l.head_ hhl hhf]
    simp only [h3, if_neg hdist, hbegin, h4]
    simp [rollback, popAll, size, setNext, setPrev, iter_inc, getNext, hlh, hhl, hrec]
  · have hwf : WF { afterReset w l.head_ with
        fresh := (afterReset w l.head_).fresh + 1,
        log := Event.allocate (if pocca then src.alloc_ else l.alloc_)
          (afterReset w l.head_).fresh 1 :: (afterReset w l.head_).log,
        next_ := Function.update (afterReset w l.head_).next_ l.head_ (w.next_ l.head_),
        prev_ := Function.update (afterReset w l.head_).prev_ l.head_ (w.prev_ l.head_) }
        l ns xs := by
      refine WF_frame hl (?_ : Frame w _ []) (fun _ _ h => by simp at h)
      refine ⟨by simp [afterReset]; omega, ?_⟩
      intro a ha _
      have haf : a ≠ w.fresh := Nat.ne_of_lt ha
      obtain ⟨e1, e2, e3⟩ := afterReset_old w l.head_ a haf
      refine ⟨e1, ?_, ?_, e2⟩
      · show Function.update (afterReset w l.head_).next_ l.head_ (w.next_ l.head_) a = _
        by_cases e : a = l.head_
        · rw [e, Function.update_same]
        · rw [Function.update_noteq e]; exact (e3 e).1
      · show Function.update (afterReset w l.head_).prev_ l.head_ (w.prev_ l.head_) a = _
        by_cases e : a = l.head_
        · rw [e, Function.update_same]
        · rw [Function.update_noteq e]; exact (e3 e).2
    exact ⟨hwf, toList_of_WF hwf⟩

/-! ## Claims on exceptions and copy assignment -/

/-- C6: when the element constructor throws inside `insert(p, v)` (the copy
of `v` throws) or inside `insert(p)` (`T()` throws), the exception propagates
and the list is as before: the data members (`size()`, `begin()`, `end()`) are
unchanged, no link, value or liveness in memory has changed, and the traversal
from `begin()` to `end()` is the same. -/
theorem insert_throw_leaves_list {α : Type} (T : ValueType α) (w : World α) (l : ListObj)
    (p : Nat) :
    (∀ v, T.copyThrows v = true →
      ∃ w', insert T w l p v = Res.thrown (w', l) ∧
        w'.live = w.live ∧ w'.next_ = w.next_ ∧ w'.prev_ = w.prev_ ∧ w'.val = w.val ∧
        toList w' l = toList w l) ∧
    (T.dflt = none →
      ∃ w', insert_default T w l p = Res.thrown (w', l) ∧
        w'.live = w.live ∧ w'.next_ = w.next_ ∧ w'.prev_ = w.prev_ ∧ w'.val = w.val ∧
        toList w' l = toList w l) := by
  have key : toList
      { w with fresh := w.fresh + 1, log := Event.allocate l.alloc_ w.fresh 1 :: w.log } l
        = toList w l := by
    unfold toList
    apply walk_congr <;> rfl
  constructor
  · intro v hv
    exact ⟨{ w with fresh := w.fresh + 1, log := Event.allocate l.alloc_ w.fresh 1 :: w.log },
      by simp [insert, hv, insertWith_throw], rfl, rfl, rfl, rfl, key⟩
  · intro hd
    exact ⟨{ w with fresh := w.fresh + 1, log := Event.allocate l.alloc_ w.fresh 1 :: w.log },
      by simp [insert_default, hd, insertWith_throw], rfl, rfl, rfl, rfl, key⟩

/-- Witness for C6: `insert(end(), -1)` and `insert(end())` on `[10, 20]` with an
element type whose copy of a negative value throws and whose default
constructor throws. -/
theorem insert_throw_leaves_list_witness :
    (∃ w', insert throwingInt demoWorld demoList 0 (-1) = Res.thrown (w', demoList) ∧
      w'.live = demoWorld.live ∧ w'.next_ = demoWorld.next_ ∧ w'.prev_ = demoWorld.prev_ ∧
      w'.val = demoWorld.val ∧ toList w' demoList = toList demoWorld demoList) ∧
    (∃ w', insert_default throwingInt demoWorld demoList 0 = Res.thrown (w', demoList) ∧
      w'.live = demoWorld.live ∧ w'.next_ = demoWorld.next_ ∧ w'.prev_ = demoWorld.prev_ ∧
      w'.val = demoWorld.val ∧ toList w' demoList = toList demoWorld demoList) :=
  ⟨(insert_throw_leaves_list throwingInt demoWorld demoList 0).1 (-1) (by decide),
    (insert_throw_leaves_list throwingInt demoWorld demoList 0).2 rfl⟩

/-- C5 fails on the code: after `target = source` with both lists empty the
call returns, but `head_.next_` of the target is the address of the destroyed
temporary of line 221, not the sentinel: `begin() != end()` although
`size() == 0`, and a traversal from `begin()` reads a dead object.  With the
source `[1]` the first `push_back` already writes through that address. -/
theorem op_assign_breaks_ring :
    ((op_assign bombInt false 1 (ctor emptyList.1 0).1 (ctor emptyList.1 0).2
        emptyList.2).returned.map fun s =>
      (s.2.head_, s.1.next_ s.2.head_, s.1.live (s.1.next_ s.2.head_)))
      = some (1, 2, false) ∧
    ((op_assign bombInt false 1 (ctor emptyList.1 0).1 (ctor emptyList.1 0).2
        emptyList.2).returned.map fun s =>
      (begin_iter s.2, end_iter s.2, size s.2, toList s.1 s.2))
      = some (2, 1, 0, none) ∧
    ((withTarget emptyList [1]).map fun s =>
      (toList s.1 s.2,
        (op_assign bombInt false 2 (ctor s.1 0).1 (ctor s.1 0).2 s.2).isUb))
      = some (some [1], true) := by
  decide!

/-- C7 fails on the code: `push_back(-1)` on an empty list, the copy of `-1`
throwing, leaves the node obtained by `allocate` outstanding; no `deallocate`
is logged. -/
theorem insert_throw_leaks_node :
    outstanding emptyList.1.log = [] ∧
    ((push_back bombInt emptyList.1 emptyList.2 (-1)).raised.map fun s =>
      (s.1.log, outstanding s.1.log)) = some ([Event.allocate 0 1 1], [1]) := by
  decide!

/-- C8 fails on the code: copy-constructing from `[1, -1]`, the copy of the
second element throwing, gives back the one appended node (address `4`) but
not the node allocated for the failing element (address `5`); the source is
unchanged. -/
theorem copy_ctor_throw_leaks_node :
    (bombSource.bind fun s =>
      (copy_ctor bombInt 2 s.1 s.2).raised.map fun s' =>
        (toList s.1 s.2, toList s'.1 s.2, size s.2))
      = some (some [1, -1], some [1, -1], 2) ∧
    (bombSource.bind fun s =>
      (copy_ctor bombInt 2 s.1 s.2).raised.map fun s' =>
        (outstanding s.1.log, outstanding s'.1.log, s'.1.log.take 4))
      = some ([2, 1], [5, 2, 1],
          [Event.deallocate 0 4 1, Event.destroy 0 4, Event.allocate 0 5 1,
            Event.allocate 0 4 1]) := by
  decide!

/-- Under the strict lifetime rule of `op_assign` (the temporary of line 221
ends with its statement), assigning `[1, -1]` to the list `[5]`, the copy of
the second element throwing, is undefined before the throw: the first
`push_back` writes `new_node->prev_->next_` through the address of that
temporary.  When the very first copy throws (source `[-1]`) no such access is
made and the handler restores size, sequence, allocator and iterators. -/
theorem op_assign_throw_undefined :
    (bombSource.bind fun s =>
      (withTarget s [5]).map fun t =>
        (toList t.1 t.2, (op_assign bombInt false 3 t.1 t.2 s.2).isUb))
      = some (some [5], true) ∧
    (bombSingle.bind fun s =>
      (withTarget s [5]).bind fun t =>
        (op_assign bombInt false 3 t.1 t.2 s.2).raised.map fun r =>
          (decide (r.2 = t.2), toList r.1 r.2, r.1.next_ r.2.head_, r.1.prev_ r.2.head_))
      = some (true, some [5], 3, 3) := by
  decide!

/-- C10 fails on the code: a successful assignment to a target of two nodes
(addresses `2`, `3`) destroys both values but issues one `deallocate` call, for
the first node with count `2`; the second node stays outstanding.  For an
empty target the call is `deallocate(&head_, 0)`, on the sentinel. -/
theorem op_assign_release_mismatch :
    ((withTarget emptyList [5, 6]).bind fun t =>
      (op_assign bombInt false 3 t.1 t.2 emptyList.2).returned.map fun r =>
        (t.2.head_, outstanding t.1.log, r.1.log.take 3, outstanding r.1.log))
      = some (1, [3, 2],
          [Event.deallocate 0 2 2, Event.destroy 0 3, Event.destroy 0 2], [3]) ∧
    ((op_assign bombInt false 1 (ctor emptyList.1 0).1 (ctor emptyList.1 0).2
        emptyList.2).returned.map fun r => (r.2.head_, r.1.log))
      = some (1, [Event.deallocate 0 1 0]) := by
  decide!

/-! ## Destruction -/

/-- In the release events of distinct nodes every node has exactly one
`destroy` and one `deallocate` of count 1. -/
theorem release_count (alloc : Nat) :
    ∀ (ns : List Nat), ns.Nodup → ∀ p ∈ ns,
      (ns.flatMap (releaseEvents alloc)).count (Event.destroy alloc p) = 1 ∧
      (ns.flatMap (releaseEvents alloc)).count (Event.deallocate alloc p 1) = 1 := by
  intro ns
  induction ns with
  | nil => intro _ p hp; simp at hp
  | cons a ns ih =>
    intro hnd p hp
    obtain ⟨ha, hnd'⟩ := List.nodup_cons.mp hnd
    have hnone : ∀ q, q ∉ ns →
        (ns.flatMap (releaseEvents alloc)).count (Event.destroy alloc q) = 0 ∧
        (ns.flatMap (releaseEvents alloc)).count (Event.deallocate alloc q 1) = 0 := by
      intro q hq
      constructor <;>
      · rw [List.count_eq_zero]
        intro hmem
        obtain ⟨b, hb, hbe⟩ := List.mem_flatMap.mp hmem
        simp [releaseEvents] at hbe
        exact hq (hbe ▸ hb)
    rcases List.mem_cons.mp hp with rfl | hp'
    · obtain ⟨h1, h2⟩ := hnone p ha
      simp [List.flatMap_cons, releaseEvents, List.count_cons] at h1 h2 ⊢
      omega
    · have hpa : p ≠ a := fun e => ha (e ▸ hp')
      obtain ⟨h1, h2⟩ := ih hnd' p hp'
      simp [List.flatMap_cons, releaseEvents, List.count_cons, hpa, Ne.symm hpa] at h1 h2 ⊢
      omega

/-- The pop loop on a well-formed list of `n` nodes: with `n` iterations of
fuel it empties the list, releasing the nodes from the back, one `destroy` and
one `deallocate(…, 1)` each. -/
theorem popAll_spec {α : Type} :
    ∀ (n : Nat) (ns : List Nat) (xs : List α) (w : World α) (l : ListObj),
      WF w l ns xs → ns.length = n →
      ∃ w' l', popAll n w l = Res.ok (w', l') ∧ WF w' l' [] [] ∧
        l'.head_ = l.head_ ∧ l'.alloc_ = l.alloc_ ∧ w'.fresh = w.fresh ∧
        w'.log = ns.flatMap (releaseEvents l.alloc_) ++ w.log := by
  intro n
  induction n with
  | zero =>
    intro ns xs w l hwf hn
    have hns : ns = [] := List.length_eq_zero.mp hn
    subst hns
    have hxs : xs = [] := List.length_eq_zero.mp (by simpa using WF_lengths hwf)
    subst hxs
    refine ⟨w, l, ?_, hwf, rfl, rfl, rfl, by simp⟩
    simp [popAll, size, hwf.sz]
  | succ n ih =>
    intro ns xs w l hwf hn
    have hlen := WF_lengths hwf
    obtain ⟨A, p, hA⟩ : ∃ A p, ns = A ++ [p] := by
      rcases List.eq_nil_or_concat ns with h | ⟨A, p, h⟩
      · subst h; simp at hn
      · exact ⟨A, p, by simpa using h⟩
    obtain ⟨X, x, hX⟩ : ∃ X x, xs = X ++ [x] := by
      rcases List.eq_nil_or_concat xs with h | ⟨X, x, h⟩
      · subst h; subst hA; simp at hlen
      · exact ⟨X, x, by simpa using h⟩
    subst hA hX
    obtain ⟨w1, l1, h1, hwf1, _, hhead, halloc, _, hfresh, hlog⟩ := pop_back_spec hwf
    obtain ⟨w2, l2, h2, hwf2, hhead2, halloc2, hfresh2, hlog2⟩ :=
      ih A X w1 l1 hwf1 (by simpa using hn)
    refine ⟨w2, l2, ?_, hwf2, hhead2.trans hhead, halloc2.trans halloc,
      hfresh2.trans hfresh, ?_⟩
    · have hpos : size l > 0 := by unfold size; rw [hwf.sz]; simp
      simp [popAll, hpos, h1, h2]
    · rw [hlog2, hlog, halloc]
      simp [releaseEvents]

/-- The pop loop needs all its iterations: with less fuel than nodes it has
not finished. -/
theorem popAll_short {α : Type} :
    ∀ (k : Nat) (ns : List Nat) (xs : List α) (w : World α) (l : ListObj),
      WF w l ns xs → k < ns.length → popAll k w l = Res.fuel := by
  intro k
  induction k with
  | zero =>
    intro ns xs w l hwf hk
    have hpos : size l > 0 := by unfold size; rw [hwf.sz]; exact hk
    simp [popAll, hpos]
  | succ k ih =>
    intro ns xs w l hwf hk
    have hlen := WF_lengths hwf
    obtain ⟨A, p, hA⟩ : ∃ A p, ns = A ++ [p] := by
      rcases List.eq_nil_or_concat ns with h | ⟨A, p, h⟩
      · subst h; simp at hk
      · exact ⟨A, p, by simpa using h⟩
    obtain ⟨X, x, hX⟩ : ∃ X x, xs = X ++ [x] := by
      rcases List.eq_nil_or_concat xs with h | ⟨X, x, h⟩
      · subst h; subst hA; simp at hlen
      · exact ⟨X, x, by simpa using h⟩
    subst hA hX
    obtain ⟨w1, l1, h1, hwf1, _⟩ := pop_back_spec hwf
    have hrec := ih A X w1 l1 hwf1 (by simpa using hk)
    have hpos : size l > 0 := by unfold size; rw [hwf.sz]; simp
    simp [popAll, hpos, h1, hrec]

/-- C11: on a well-formed list of `n` payload nodes the destructor returns
after exactly `n` `pop_back` steps (fewer iterations do not finish the loop),
the log gains for every node exactly one `destroy` and one `deallocate` of
count 1, and `size()` ends at `0`; for `n = 0` the destructor changes nothing:
no link, no value, no allocator call. -/
theorem dtor_releases_all {α : Type} (w : World α) (l : ListObj) (ns : List Nat)
    (xs : List α) (hwf : WF w l ns xs) :
    (∃ w' l', dtor w l = Res.ok (w', l') ∧ size l' = 0 ∧ toList w' l' = some [] ∧
      w'.log = ns.flatMap (releaseEvents l.alloc_) ++ w.log ∧
      (∀ p ∈ ns, (ns.flatMap (releaseEvents l.alloc_)).count (Event.destroy l.alloc_ p) = 1 ∧
        (ns.flatMap (releaseEvents l.alloc_)).count (Event.deallocate l.alloc_ p 1) = 1)) ∧
    size l = ns.length ∧
    (∀ k, k < ns.length → popAll k w l = Res.fuel) ∧
    (ns = [] → dtor w l = Res.ok (w, l)) := by
  obtain ⟨w', l', h, hwf', _, _, _, hlog⟩ := popAll_spec ns.length ns xs w l hwf rfl
  have hsz : size l = ns.length := hwf.sz
  refine ⟨⟨w', l', ?_, ?_, toList_of_WF hwf', hlog, ?_⟩, hsz,
    fun k hk => popAll_short k ns xs w l hwf hk, ?_⟩
  · unfold dtor; rw [hsz]; exact h
  · unfold size; rw [hwf'.sz]; rfl
  · intro p hp
    exact release_count l.alloc_ ns (List.nodup_cons.mp hwf.nodup).2 p hp
  · intro hns
    subst hns
    unfold dtor
    rw [hsz]
    simp [popAll, size, hwf.sz]

/-- Witness for C11: destroying the two-element list `[10, 20]`. -/
theorem dtor_releases_all_witness :
    (∃ w' l', dtor demoWorld demoList = Res.ok (w', l') ∧ size l' = 0 ∧
      toList w' l' = some [] ∧
      w'.log = [Event.deallocate 0 1 1, Event.destroy 0 1, Event.deallocate 0 2 1,
        Event.destroy 0 2] ++ demoWorld.log ∧
      (∀ p ∈ [1, 2],
        ([1, 2].flatMap (releaseEvents demoList.alloc_)).count
          (Event.destroy demoList.alloc_ p) = 1 ∧
        ([1, 2].flatMap (releaseEvents demoList.alloc_)).count
          (Event.deallocate demoList.alloc_ p 1) = 1)) ∧
    size demoList = 2 ∧
    (∀ k, k < 2 → popAll k demoWorld demoList = Res.fuel) ∧
    (([1, 2] : List Nat) = [] → dtor demoWorld demoList = Res.ok (demoWorld, demoList)) :=
  dtor_releases_all demoWorld demoList [1, 2] [10, 20] demo_WF

/-! ## The arena allocator -/

/-- The aligned address is not before `p`. -/
theorem le_alignUp (p a : Nat) (ha : 0 < a) : p ≤ alignUp p a := by
  unfold alignUp
  have h1 := Nat.div_add_mod (p + a - 1) a
  have h2 := Nat.mod_lt (p + a - 1) ha
  have h3 : (p + a - 1) / a * a = a * ((p + a - 1) / a) := Nat.mul_comm _ _
  omega

/-- The aligned address is a multiple of `a`. -/
theorem dvd_alignUp (p a : Nat) : a ∣ alignUp p a := Dvd.intro_left _ rfl

/-- The aligned address is the least multiple of `a` at or after `p`. -/
theorem alignUp_le (p a q : Nat) (ha : 0 < a) (hq : p ≤ q) (hd : a ∣ q) : alignUp p a ≤ q := by
  obtain ⟨k, rfl⟩ := hd
  unfold alignUp
  have hk : (p + a - 1) / a ≤ k := by
    rw [Nat.div_le_iff_le_mul_add_pred ha]
    have : k * a = a * k := Nat.mul_comm _ _
    omega
  calc (p + a - 1) / a * a ≤ k * a := Nat.mul_le_mul_right _ hk
    _ = a * k := Nat.mul_comm _ _

/-- An aligned address is its own alignment. -/
theorem alignUp_of_dvd (p a : Nat) (ha : 0 < a) (hd : a ∣ p) : alignUp p a = p :=
  Nat.le_antisymm (alignUp_le p a p ha (Nat.le_refl _) hd) (le_alignUp p a ha)

/-- An address that is not aligned moves forward. -/
theorem lt_alignUp_of_not_dvd (p a : Nat) (ha : 0 < a) (hd : ¬ a ∣ p) : p < alignUp p a := by
  rcases Nat.lt_or_ge p (alignUp p a) with h | h
  · exact h
  · have : alignUp p a = p := Nat.le_antisymm h (le_alignUp p a ha)
    exact absurd (this ▸ dvd_alignUp p a) hd

/-- A request that fits a storage in use is served: `allocate` returns the
aligned cursor, moves the cursor past the block and lowers `size` by the
alignment bytes only. -/
theorem allocate_fits (T : ElemType) (s : StackStorage) (n : Nat) (ha : 0 < T.alignof)
    (hok : ArenaOk s) (hfit : alignUp s.top T.alignof + n * T.sizeof ≤ s.pool + s.cap) :
    StackAllocator.allocate T s n =
      ({ s with top := alignUp s.top T.alignof + n * T.sizeof,
                size := s.size - (alignUp s.top T.alignof - s.top) },
        some (alignUp s.top T.alignof)) := by
  obtain ⟨h1, h2, h3, h4⟩ := hok
  have hle := le_alignUp s.top T.alignof ha
  have hmul : T.sizeof * n = n * T.sizeof := Nat.mul_comm _ _
  have hmod : (T.sizeof * n) % 2 ^ 64 = n * T.sizeof := by
    rw [Nat.mod_eq_of_lt (by omega), hmul]
  have hcond : n * T.sizeof ≤ s.size ∧
      alignUp s.top T.alignof - s.top ≤ s.size - n * T.sizeof := by omega
  unfold StackAllocator.allocate std_align
  rw [hmod, if_pos hcond]

/-- Serving a fitting request keeps the storage in use. -/
theorem ArenaOk_allocate (T : ElemType) (s : StackStorage) (n : Nat) (ha : 0 < T.alignof)
    (hok : ArenaOk s) (hfit : alignUp s.top T.alignof + n * T.sizeof ≤ s.pool + s.cap) :
    ArenaOk (StackAllocator.allocate T s n).1 := by
  rw [allocate_fits T s n ha hok hfit]
  obtain ⟨h1, h2, h3, h4⟩ := hok
  have hle := le_alignUp s.top T.alignof ha
  refine ⟨?_, ?_, ?_, ?_⟩ <;> simp only <;> omega

/-- A fresh storage is in use. -/
theorem ArenaOk_init (pool cap : Nat) (hcap : cap < 2 ^ 64) :
    ArenaOk (StackStorage.init pool cap) := by
  unfold ArenaOk StackStorage.init
  exact ⟨Nat.le_refl _, Nat.le_add_right _ _, Nat.le_refl _, hcap⟩
/-- Releasing the block just allocated keeps the storage in use. -/
theorem ArenaOk_alloc_dealloc (T : ElemType) (s : StackStorage) (n : Nat) (ha : 0 < T.alignof)
    (hok : ArenaOk s) (hfit : alignUp s.top T.alignof + n * T.sizeof ≤ s.pool + s.cap) :
    ArenaOk (StackAllocator.deallocate T (StackAllocator.allocate T s n).1
      (alignUp s.top T.alignof) n) := by
  rw [allocate_fits T s n ha hok hfit]
  obtain ⟨h1, h2, h3, h4⟩ := hok
  have hle := le_alignUp s.top T.alignof ha
  simp only [StackAllocator.deallocate, if_true]
  refine ⟨?_, ?_, ?_, ?_⟩ <;> simp only <;> omega

/-- A run of fitting requests on a storage in use: every call returns a
pointer; each block is aligned for its type, starts at or after the old
cursor, ends inside the buffer, and ends before every later block starts. -/
theorem allocRun_spec :
    ∀ (reqs : List (ElemType × Nat)) (s : StackStorage), ArenaOk s → fitsRun s reqs →
      ∃ ps : List Nat, (allocRun s reqs).2 = ps.map some ∧ ps.length = reqs.length ∧
        (∀ x ∈ ps.zip reqs, x.2.1.alignof ∣ x.1 ∧ s.top ≤ x.1 ∧
          blockEnd x ≤ s.pool + s.cap) ∧
        (ps.zip reqs).Pairwise (fun x y => blockEnd x ≤ y.1) := by
  intro reqs
  induction reqs with
  | nil =>
    intro s _ _
    exact ⟨[], rfl, rfl, by simp, by simp⟩
  | cons r rs ih =>
    intro s hok hfit
    obtain ⟨ha, hfit1, hfitr⟩ := hfit
    have hal := allocate_fits r.1 s r.2 ha hok hfit1
    have hok' := ArenaOk_allocate r.1 s r.2 ha hok hfit1
    obtain ⟨ps, hps, hlen, hall, hpw⟩ := ih _ hok' hfitr
    have htop : (StackAllocator.allocate r.1 s r.2).1.top
        = alignUp s.top r.1.alignof + r.2 * r.1.sizeof := by rw [hal]
    have hpool : (StackAllocator.allocate r.1 s r.2).1.pool = s.pool := by rw [hal]
    have hcap : (StackAllocator.allocate r.1 s r.2).1.cap = s.cap := by rw [hal]
    have hret : (StackAllocator.allocate r.1 s r.2).2 = some (alignUp s.top r.1.alignof) := by
      rw [hal]
    have hle := le_alignUp s.top r.1.alignof ha
    refine ⟨alignUp s.top r.1.alignof :: ps, ?_, by simp [hlen], ?_, ?_⟩
    · simp [allocRun, hret, hps]
    · intro x hx
      rw [List.zip_cons_cons] at hx
      rcases List.mem_cons.mp hx with rfl | hx'
      · exact ⟨dvd_alignUp _ _, hle, hfit1⟩
      · obtain ⟨h1, h2, h3⟩ := hall x hx'
        rw [htop] at h2
        rw [hpool, hcap] at h3
        exact ⟨h1, by omega, h3⟩
    · rw [List.zip_cons_cons, List.pairwise_cons]
      refine ⟨?_, hpw⟩
      intro y hy
      obtain ⟨_, h2, _⟩ := hall y hy
      rw [htop] at h2
      exact h2

/-- C12 fails as stated: with the cursor at 4097, not aligned for an
eight-byte type, `allocate(1)` returns 4104 and the immediate
`deallocate(4104, 1)` leaves the cursor at 4104, not at 4097. -/
theorem alloc_dealloc_unaligned_cursor :
    arenaAfterChar.top = 4097 ∧
    (StackAllocator.allocate wordType arenaAfterChar 1).2 = some 4104 ∧
    (StackAllocator.deallocate wordType (StackAllocator.allocate wordType arenaAfterChar 1).1
      4104 1).top = 4104 ∧
    (StackAllocator.deallocate wordType (StackAllocator.allocate wordType arenaAfterChar 1).1
      4104 1).top ≠ arenaAfterChar.top := by
  decide

/-- C12 amended: on a storage in use, a fitting `allocate(n)` followed at once
by `deallocate(p, n)` with the returned `p` leaves the cursor at `p`, the old
cursor rounded up to `alignof(T)`: the old position itself when that was
aligned for `T`, a later one when it was not. -/
theorem alloc_dealloc_cursor (T : ElemType) (s : StackStorage) (n : Nat)
    (ha : 0 < T.alignof) (hok : ArenaOk s)
    (hfit : alignUp s.top T.alignof + n * T.sizeof ≤ s.pool + s.cap) :
    ∃ p, (StackAllocator.allocate T s n).2 = some p ∧ p = alignUp s.top T.alignof ∧
      (StackAllocator.deallocate T (StackAllocator.allocate T s n).1 p n).top = p ∧
      (T.alignof ∣ s.top →
        (StackAllocator.deallocate T (StackAllocator.allocate T s n).1 p n).top = s.top) ∧
      (¬ T.alignof ∣ s.top →
        s.top < (StackAllocator.deallocate T (StackAllocator.allocate T s n).1 p n).top) := by
  have hal := allocate_fits T s n ha hok hfit
  have htop : (StackAllocator.deallocate T (StackAllocator.allocate T s n).1
      (alignUp s.top T.alignof) n).top = alignUp s.top T.alignof := by
    rw [hal]
    simp [StackAllocator.deallocate]
  refine ⟨alignUp s.top T.alignof, by rw [hal], rfl, htop, ?_, ?_⟩
  · intro hd
    rw [htop, alignUp_of_dvd _ _ ha hd]
  · intro hd
    rw [htop]
    exact lt_alignUp_of_not_dvd _ _ ha hd

/-- Witness for C12 amended: an eight-byte request at the unaligned cursor
4097 of a 1024-byte storage. -/
theorem alloc_dealloc_cursor_witness :
    ∃ p, (StackAllocator.allocate wordType arenaAfterChar 1).2 = some p ∧
      p = alignUp arenaAfterChar.top wordType.alignof ∧
      (StackAllocator.deallocate wordType
        (StackAllocator.allocate wordType arenaAfterChar 1).1 p 1).top = p ∧
      (wordType.alignof ∣ arenaAfterChar.top →
        (StackAllocator.deallocate wordType
          (StackAllocator.allocate wordType arenaAfterChar 1).1 p 1).top
            = arenaAfterChar.top) ∧
      (¬ wordType.alignof ∣ arenaAfterChar.top →
        arenaAfterChar.top < (StackAllocator.deallocate wordType
          (StackAllocator.allocate wordType arenaAfterChar 1).1 p 1).top) :=
  alloc_dealloc_cursor wordType arenaAfterChar 1 (by decide) (by decide) (by decide)

/-- C13: a `deallocate(ptr, n)` whose `ptr + n` is not the cursor changes
nothing in the storage: the cursor `top` and the `size` member stay as they
were. -/
theorem dealloc_not_top_frame (T : ElemType) (s : StackStorage) (ptr n : Nat)
    (h : ptr + n * T.sizeof ≠ s.top) :
    (StackAllocator.deallocate T s ptr n).top = s.top ∧
    (StackAllocator.deallocate T s ptr n).size = s.size ∧
    StackAllocator.deallocate T s ptr n = s := by
  simp [StackAllocator.deallocate, h]

/-- Witness for C13: releasing the first of two blocks. -/
theorem dealloc_not_top_frame_witness :
    (StackAllocator.deallocate wordType
      (StackAllocator.allocate wordType arenaAfterChar 1).1 4096 1).top
        = (StackAllocator.allocate wordType arenaAfterChar 1).1.top ∧
    (StackAllocator.deallocate wordType
      (StackAllocator.allocate wordType arenaAfterChar 1).1 4096 1).size
        = (StackAllocator.allocate wordType arenaAfterChar 1).1.size ∧
    StackAllocator.deallocate wordType
      (StackAllocator.allocate wordType arenaAfterChar 1).1 4096 1
        = (StackAllocator.allocate wordType arenaAfterChar 1).1 :=
  dealloc_not_top_frame wordType (StackAllocator.allocate wordType arenaAfterChar 1).1 4096 1
    (by decide)

/-- C14 fails on the code: `allocate` lowers `size` only by the alignment
bytes, never by the bytes handed out.  After one 24-byte allocation from a
fresh 1024-byte storage at 4096 the cursor is at 4120 (1000 bytes to the end)
while `size` is still 1024; after ten the cursor is at 4336 (784 bytes to the
end) and `size` is still 1024, a decrease of 0, not of 240 or more. -/
theorem size_not_distance :
    (StackAllocator.allocate nodeType (StackStorage.init 4096 1024) 1).1
      = { pool := 4096, cap := 1024, top := 4120, size := 1024 } ∧
    (allocRun (StackStorage.init 4096 1024) (List.replicate 10 (nodeType, 1))).1
      = { pool := 4096, cap := 1024, top := 4336, size := 1024 } ∧
    (allocRun (StackStorage.init 4096 1024) (List.replicate 10 (nodeType, 1))).2
      = [some 4096, some 4120, some 4144, some 4168, some 4192, some 4216, some 4240,
          some 4264, some 4288, some 4312] := by
  decide

/-- C15 fails as stated: two `allocate(0)` calls in a row, which fit any
storage, return the same address 4104, so the returned addresses are not
pairwise distinct. -/
theorem allocate_zero_same_address :
    ArenaOk arenaAfterChar ∧ fitsRun arenaAfterChar emptyRequests ∧
    (allocRun arenaAfterChar emptyRequests).2 = [some 4104, some 4104] ∧
    ¬ (allocRun arenaAfterChar emptyRequests).2.Nodup := by
  decide

/-- C15 amended: on a storage in use, `allocate(n)` for a request that fits
between the cursor and the end of the buffer returns the smallest multiple of
`alignof(T)` at or after the old cursor and leaves the cursor `n * sizeof(T)`
past it; in a run of fitting allocations with no deallocation every call
returns a pointer, each block is aligned for its type and lies inside the
buffer, every block ends before the later ones start, and when every request
has positive length (`n >= 1`) the addresses are pairwise distinct and
increasing. -/
theorem allocate_aligned_disjoint (s : StackStorage) (hok : ArenaOk s)
    (T : ElemType) (n : Nat) (ha : 0 < T.alignof)
    (hfit1 : alignUp s.top T.alignof + n * T.sizeof ≤ s.pool + s.cap)
    (reqs : List (ElemType × Nat)) (hfit : fitsRun s reqs) :
    (∃ p, (StackAllocator.allocate T s n).2 = some p ∧ s.top ≤ p ∧ T.alignof ∣ p ∧
      (∀ q, s.top ≤ q → T.alignof ∣ q → p ≤ q) ∧
      (StackAllocator.allocate T s n).1.top = p + n * T.sizeof) ∧
    (∃ ps : List Nat, (allocRun s reqs).2 = ps.map some ∧ ps.length = reqs.length ∧
      (∀ x ∈ ps.zip reqs, x.2.1.alignof ∣ x.1 ∧ s.top ≤ x.1 ∧
        blockEnd x ≤ s.pool + s.cap) ∧
      (ps.zip reqs).Pairwise (fun x y => blockEnd x ≤ y.1) ∧
      ((∀ r ∈ reqs, 0 < r.2 * r.1.sizeof) → ps.Pairwise (fun a b => a < b) ∧ ps.Nodup)) := by
  constructor
  · have hal := allocate_fits T s n ha hok hfit1
    refine ⟨alignUp s.top T.alignof, by rw [hal], le_alignUp _ _ ha, dvd_alignUp _ _,
      fun q hq hd => alignUp_le _ _ q ha hq hd, by rw [hal]⟩
  · obtain ⟨ps, hps, hlen, hall, hpw⟩ := allocRun_spec reqs s hok hfit
    refine ⟨ps, hps, hlen, hall, hpw, ?_⟩
    intro hpos
    have hlt : (ps.zip reqs).Pairwise (fun x y => x.1 < y.1) := by
      refine List.Pairwise.imp_of_mem ?_ hpw
      intro x y hx _ hxy
      have hr : 0 < x.2.2 * x.2.1.sizeof := hpos x.2 (List.of_mem_zip hx).2
      unfold blockEnd at hxy
      omega
    have hmap : (ps.zip reqs).map Prod.fst = ps :=
      List.map_fst_zip _ _ (Nat.le_of_eq hlen)
    have hps2 : ps.Pairwise (fun a b => a < b) := by
      rw [← hmap, List.pairwise_map]
      exact hlt
    exact ⟨hps2, hps2.imp (fun h => Nat.ne_of_lt h)⟩

/-- Witness for C15: a word and two nodes requested from a 1024-byte storage
at 4096 after one `char`; both requests have positive length. -/
theorem allocate_aligned_disjoint_witness :
    (∃ p, (StackAllocator.allocate wordType arenaAfterChar 1).2 = some p ∧
      arenaAfterChar.top ≤ p ∧ wordType.alignof ∣ p ∧
      (∀ q, arenaAfterChar.top ≤ q → wordType.alignof ∣ q → p ≤ q) ∧
      (StackAllocator.allocate wordType arenaAfterChar 1).1.top = p + 1 * wordType.sizeof) ∧
    (∃ ps : List Nat,
      (allocRun arenaAfterChar [(wordType, 1), (nodeType, 2)]).2 = ps.map some ∧
      ps.length = [(wordType, 1), (nodeType, 2)].length ∧
      (∀ x ∈ ps.zip [(wordType, 1), (nodeType, 2)], x.2.1.alignof ∣ x.1 ∧
        arenaAfterChar.top ≤ x.1 ∧ blockEnd x ≤ arenaAfterChar.pool + arenaAfterChar.cap) ∧
      (ps.zip [(wordType, 1), (nodeType, 2)]).Pairwise (fun x y => blockEnd x ≤ y.1) ∧
      (∀ r ∈ [(wordType, 1), (nodeType, 2)], 0 < r.2 * r.1.sizeof) ∧
      ps.Pairwise (fun a b => a < b) ∧ ps.Nodup) :=
  ⟨(allocate_aligned_disjoint arenaAfterChar (by decide) wordType 1 (by decide) (by decide)
      [(wordType, 1), (nodeType, 2)] (by decide)).1,
    (allocate_aligned_disjoint arenaAfterChar (by decide) wordType 1 (by decide) (by decide)
      [(wordType, 1), (nodeType, 2)] (by decide)).2.elim fun ps hp =>
        ⟨ps, hp.1, hp.2.1, hp.2.2.1, hp.2.2.2.1, by decide, hp.2.2.2.2 (by decide)⟩⟩

/-- C16: two allocators compare equal exactly when they hold the same storage
address, `!=` is the negation of `==`, and an allocator made from `a` by the
converting constructor or the converting assignment holds the storage of `a`
and compares equal to it. -/
theorem allocator_equality (a b c : StackAllocator) :
    (StackAllocator.eq a b = true ↔ a.memory = b.memory) ∧
    StackAllocator.ne a b = !StackAllocator.eq a b ∧
    (StackAllocator.convert a).memory = a.memory ∧
    StackAllocator.eq (StackAllocator.convert a) a = true ∧
    (StackAllocator.assign c a).memory = a.memory ∧
    StackAllocator.eq (StackAllocator.assign c a) a = true ∧
    (StackAllocator.eq (StackAllocator.bind a.memory) a = true) := by
  simp [StackAllocator.eq, StackAllocator.ne, StackAllocator.convert, StackAllocator.assign,
    StackAllocator.bind, bne]

/-! ## Self-assignment -/

/-- Self-assignment is undefined on every well-formed list: after line 221
`begin_` is the address of the destroyed temporary, the loop of line 224 runs
over `*this` from there, and its first step dereferences that address. -/
theorem op_assign_self_ub {α : Type} (T : ValueType α) (pocca : Bool) (fuel : Nat)
    {w : World α} {l : ListObj} {ns : List Nat} {xs : List α}
    (hl : WF w l ns xs) (hfuel : 0 < fuel) :
    op_assign T pocca fuel w l l = Res.ub := by
  have hhl : w.live l.head_ = true := hl.alive _ (by simp)
  have hhf : l.head_ ≠ w.fresh := Nat.ne_of_lt (hl.below _ (by simp))
  obtain ⟨k, rfl⟩ : ∃ k, fuel = k + 1 := ⟨fuel - 1, by omega⟩
  have h1 : getNext w l.head_ = some (w.next_ l.head_) := by simp [getNext, hhl]
  have h2 : getPrev w l.head_ = some (w.prev_ l.head_) := by simp [getPrev, hhl]
  obtain ⟨hnh, _, hdead, _, _⟩ := afterReset_head w l.head_
  obtain ⟨hlh, _, _⟩ := afterReset_old w l.head_ l.head_ hhf
  have h3 : iter_inc (afterReset w l.head_) l.head_ = some w.fresh := by
    simp [iter_inc, getNext, hlh, hhl, hnh]
  have h4 : ∀ L : ListObj,
      copyLoop T (k + 1) (afterReset w l.head_) L w.fresh l.head_ = Res.ub := by
    intro L
    simp [copyLoop, Ne.symm hhf, getVal, hdead]
  unfold op_assign
  rw [h1, h2, resetHead_ok w l.head_ hhl hhf]
  simp only [h3, if_pos, h4]

/-- C20 fails on the code: `L = L` on an empty list, and on the list `[1, 2]`,
runs into undefined behaviour instead of returning with `L` unchanged: the
copy loop starts at the address of the destroyed temporary of line 221 and
dereferences it. -/
theorem op_assign_self_undefined :
    toList emptyList.1 emptyList.2 = some [] ∧
    (op_assign bombInt false 1 emptyList.1 emptyList.2 emptyList.2).isUb = true ∧
    ((withTarget emptyList [1, 2]).map fun s =>
      (toList s.1 s.2, (op_assign bombInt false 3 s.1 s.2 s.2).isUb))
      = some (some [1, 2], true) := by
  decide!

/-! ## Ring and iterator invariants -/

/-- In a well-formed list the first `size()` positions from `begin()` are the
payload nodes with the values of the sequence, and position `size()` is
`end()`. -/
theorem WF_positions {α : Type} {w : World α} {l : ListObj} {ns : List Nat} {xs : List α}
    (hwf : WF w l ns xs) :
    iterAt w l (size l) = some (end_iter l) ∧
    (∀ k, k < size l → ∃ p, iterAt w l k = some p ∧ p ∈ ns ∧ p ≠ end_iter l ∧
      getVal w p = xs[k]?) := by
  have hsz : size l = ns.length := hwf.sz
  have hlen := WF_lengths hwf
  constructor
  · rw [hsz, iterAt_of_WF hwf _ (Nat.le_refl _)]
    unfold end_iter
    rw [hwf.end_eq]
    simp
  · intro k hk
    rw [hsz] at hk
    have hp : ns[k]? = some ns[k] := List.getElem?_eq_getElem hk
    have hmem : ns[k] ∈ ns := List.getElem_mem _
    refine ⟨ns[k], ?_, hmem, ?_, ?_⟩
    · rw [iterAt_of_WF hwf k (by omega), List.getElem?_append_left hk, hp]
    · unfold end_iter
      rw [hwf.end_eq]
      intro e
      exact (List.nodup_cons.mp hwf.nodup).1 (e ▸ hmem)
    · have hkx : k < xs.length := by omega
      have hk1 : k < (ns.map w.val).length := by simpa using hk
      have hk2 : k < (xs.map some).length := by simpa using hkx
      have e1 : (ns.map w.val)[k] = (xs.map some)[k] := List.getElem_of_eq hwf.vals hk1
      rw [List.getElem_map, List.getElem_map] at e1
      rw [List.getElem?_eq_getElem hkx]
      simp [getVal, hwf.alive _ (List.mem_cons_of_mem _ hmem), e1]

/-- A link write changes neither values nor liveness. -/
theorem setNext_keeps {α : Type} {w w' : World α} {a b : Nat} (h : setNext w a b = some w') :
    w'.val = w.val ∧ w'.live = w.live := by
  unfold setNext at h
  split at h
  · simp only [Option.some.injEq] at h; subst h; exact ⟨rfl, rfl⟩
  · simp at h

/-- A link write changes neither values nor liveness. -/
theorem setPrev_keeps {α : Type} {w w' : World α} {a b : Nat} (h : setPrev w a b = some w') :
    w'.val = w.val ∧ w'.live = w.live := by
  unfold setPrev at h
  split at h
  · simp only [Option.some.injEq] at h; subst h; exact ⟨rfl, rfl⟩
  · simp at h

/-- The link assignments of `insert` change neither values nor liveness. -/
theorem linkBefore_keeps {α : Type} {w w' : World α} {nn ptr : Nat}
    (h : linkBefore w nn ptr = some w') : w'.val = w.val ∧ w'.live = w.live := by
  simp only [linkBefore, Option.bind_eq_some] at h
  obtain ⟨w1, h1, _, _, w2, h2, w3, h3, _, _, h4⟩ := h
  obtain ⟨a1, b1⟩ := setNext_keeps h1
  obtain ⟨a2, b2⟩ := setPrev_keeps h2
  obtain ⟨a3, b3⟩ := setPrev_keeps h3
  obtain ⟨a4, b4⟩ := setNext_keeps h4
  exact ⟨a4.trans (a3.trans (a2.trans a1)), b4.trans (b3.trans (b2.trans b1))⟩

/-- The link assignments of `erase` change neither values nor liveness. -/
theorem unlink_keeps {α : Type} {w w' : World α} {ptr : Nat}
    (h : unlink w ptr = some w') : w'.val = w.val ∧ w'.live = w.live := by
  simp only [unlink, Option.bind_eq_some] at h
  obtain ⟨_, _, _, _, w1, h1, _, _, _, _, h2⟩ := h
  obtain ⟨a1, b1⟩ := setNext_keeps h1
  obtain ⟨a2, b2⟩ := setPrev_keeps h2
  exact ⟨a2.trans a1, b2.trans b1⟩

/-- A returning `insert` leaves the value and the liveness of every object
other than the new node as they were. -/
theorem insert_keeps {α : Type} (T : ValueType α) {w w' : World α} {l l' : ListObj}
    {p : Nat} {v : α} (h : insert T w l p v = Res.ok (w', l')) (a : Nat) (ha : a ≠ w.fresh) :
    w'.val a = w.val a ∧ w'.live a = w.live a := by
  unfold insert insertWith at h
  split at h
  · simp at h
  · rename_i w2 hc
    split at h
    · simp at h
    · rename_i w3 hlb
      split at h
      · simp at h
      · simp only [Res.ok.injEq, Prod.mk.injEq] at h
        obtain ⟨hw, _⟩ := h
        subst hw
        obtain ⟨e1, e2⟩ := linkBefore_keeps hlb
        simp only [construct, allocate, Option.map_eq_some'] at hc
        obtain ⟨x, _, hx⟩ := hc
        subst hx
        rw [e1, e2]
        simp [Function.update_noteq ha]

/-- A returning `erase` leaves the value and the liveness of every object
other than the erased node as they were. -/
theorem erase_keeps {α : Type} {w w' : World α} {l l' : ListObj} {p : Nat}
    (h : erase w l p = Res.ok (w', l')) (a : Nat) (ha : a ≠ p) :
    w'.val a = w.val a ∧ w'.live a = w.live a := by
  unfold erase at h
  split at h
  · simp at h
  · rename_i w1 hu
    split at h
    · simp at h
    · rename_i w2 hd
      split at h
      · simp at h
      · simp only [Res.ok.injEq, Prod.mk.injEq] at h
        obtain ⟨hw, _⟩ := h
        subst hw
        obtain ⟨e1, e2⟩ := unlink_keeps hu
        unfold destroy at hd
        split at hd
        · simp only [Option.some.injEq] at hd
          subst hd
          constructor
          · show Function.update w1.val p none a = w.val a
            rw [Function.update_noteq ha, e1]
          · show (if p ∈ outstanding _ then Function.update w1.live p false else w1.live) a
              = w.live a
            split
            · rw [Function.update_noteq ha, e2]
            · rw [e2]
        · simp at hd

/-- Advancing from `begin()` is `iterAt`. -/
theorem iterAt_eq_advance {α : Type} (w : World α) (l : ListObj) :
    ∀ k, iterAt w l k = advance w (begin_iter l) k := by
  intro k
  induction k with
  | zero => rfl
  | succ k ih => simp [iterAt, advance, ih]

/-- Advancing `j + m` times is advancing `j` times and then `m` times. -/
theorem advance_add {α : Type} (w : World α) (it j : Nat) :
    ∀ m, advance w it (j + m) = (advance w it j).bind fun x => advance w x m := by
  intro m
  induction m with
  | zero => simp [advance]
  | succ m ih =>
    rw [← Nat.add_assoc, advance, ih]
    cases advance w it j with
    | none => rfl
    | some x => simp [advance]

/-- From every payload node of a well-formed list repeated `++` reaches
`end()`, and the node is one of the positions counted from `begin()`. -/
theorem WF_reaches_end {α : Type} {w : World α} {l : ListObj} {ns : List Nat} {xs : List α}
    (hwf : WF w l ns xs) (q : Nat) (hq : q ∈ ns) :
    (∃ j, j < size l ∧ iterAt w l j = some q) ∧
    (∃ k, advance w q k = some (end_iter l)) := by
  obtain ⟨j, hj, hjq⟩ := List.getElem_of_mem hq
  have hsz : size l = ns.length := hwf.sz
  have h1 : iterAt w l j = some q := by
    rw [iterAt_of_WF hwf j (by omega), List.getElem?_append_left hj,
      List.getElem?_eq_getElem hj, hjq]
  obtain ⟨hend, _⟩ := WF_positions hwf
  refine ⟨⟨j, by omega, h1⟩, ns.length - j, ?_⟩
  have h2 := advance_add w (begin_iter l) j (ns.length - j)
  rw [← iterAt_eq_advance, ← iterAt_eq_advance, h1, Option.some_bind,
    show j + (ns.length - j) = size l by omega, hend] at h2
  exact h2.symm

/-- C19: on a well-formed list, `insert(p, v)` at a valid position leaves every
payload node `q` in the ring with its value, and `erase(p)` leaves every
payload node `q` other than the erased one in the ring with its value: the
iterator to `q` (the same address) dereferences to the same value, is one of
the positions from `begin()`, and reaches `end()` by repeated `++`. -/
theorem other_iterators_valid {α : Type} (T : ValueType α) (w : World α) (l : ListObj)
    (ns : List Nat) (xs : List α) (hwf : WF w l ns xs) (q : Nat) (hq : q ∈ ns) :
    (getVal w q).isSome = true ∧
    (∀ (i p : Nat) (v : α), (ns ++ [l.head_])[i]? = some p → T.copyThrows v = false →
      ns.length + 1 < 2 ^ 64 →
      ∃ w' l', insert T w l p v = Res.ok (w', l') ∧ getVal w' q = getVal w q ∧
        (∃ j, j < size l' ∧ iterAt w' l' j = some q) ∧
        (∃ k, advance w' q k = some (end_iter l'))) ∧
    (∀ (i p : Nat), ns[i]? = some p → q ≠ p →
      ∃ w' l', erase w l p = Res.ok (w', l') ∧ getVal w' q = getVal w q ∧
        (∃ j, j < size l' ∧ iterAt w' l' j = some q) ∧
        (∃ k, advance w' q k = some (end_iter l'))) := by
  have hqf : q ≠ w.fresh := Nat.ne_of_lt (hwf.below q (List.mem_cons_of_mem _ hq))
  refine ⟨?_, ?_, ?_⟩
  · obtain ⟨j, hj, hjq⟩ := List.getElem_of_mem hq
    have hsz : size l = ns.length := hwf.sz
    obtain ⟨_, hpos⟩ := WF_positions hwf
    obtain ⟨p, h1, _, _, h3⟩ := hpos j (by omega)
    have hpq : p = q := by
      rw [iterAt_of_WF hwf j (by omega), List.getElem?_append_left hj,
        List.getElem?_eq_getElem hj, hjq] at h1
      exact (Option.some.inj h1).symm
    rw [← hpq, h3, List.getElem?_eq_getElem (by rw [WF_lengths hwf]; exact hj)]
    rfl
  · intro i p v hp hv hs
    obtain ⟨w', l', h, hwf', _⟩ := WF_insert_at T v hwf hp hv hs
    obtain ⟨e1, e2⟩ := insert_keeps T h q hqf
    have hq' : q ∈ ns.take i ++ w.fresh :: ns.drop i := by
      have : q ∈ ns.take i ++ ns.drop i := by rw [List.take_append_drop]; exact hq
      simp only [List.mem_append, List.mem_cons] at this ⊢
      tauto
    obtain ⟨h1, h2⟩ := WF_reaches_end hwf' q hq'
    exact ⟨w', l', h, by simp [getVal, e1, e2], h1, h2⟩
  · intro i p hp hqp
    obtain ⟨w', l', h, hwf', _⟩ := WF_erase_at hwf hp
    obtain ⟨e1, e2⟩ := erase_keeps h q hqp
    have hq' : q ∈ ns.eraseIdx i := by
      obtain ⟨hns, _, _⟩ := split_of_getElem? hp
      rw [List.eraseIdx_eq_take_drop_succ]
      rw [hns] at hq
      simp only [List.mem_append, List.mem_cons] at hq ⊢
      tauto
    obtain ⟨h1, h2⟩ := WF_reaches_end hwf' q hq'
    exact ⟨w', l', h, by simp [getVal, e1, e2], h1, h2⟩

/-- Witness for C19: the second node of `[10, 20]`. -/
theorem other_iterators_valid_witness :
    (getVal demoWorld 2).isSome = true ∧
    (∀ (i p : Nat) (v : Int), ([1, 2] ++ [demoList.head_])[i]? = some p → plainInt.copyThrows v = false →
      [1, 2].length + 1 < 2 ^ 64 →
      ∃ w' l', insert plainInt demoWorld demoList p v = Res.ok (w', l') ∧
        getVal w' 2 = getVal demoWorld 2 ∧
        (∃ j, j < size l' ∧ iterAt w' l' j = some 2) ∧
        (∃ k, advance w' 2 k = some (end_iter l'))) ∧
    (∀ (i p : Nat), [1, 2][i]? = some p → 2 ≠ p →
      ∃ w' l', erase demoWorld demoList p = Res.ok (w', l') ∧
        getVal w' 2 = getVal demoWorld 2 ∧
        (∃ j, j < size l' ∧ iterAt w' l' j = some 2) ∧
        (∃ k, advance w' 2 k = some (end_iter l'))) :=
  other_iterators_valid plainInt demoWorld demoList [1, 2] [10, 20] demo_WF 2 (by decide)

/-! ## Rollback of copy assignment -/

/-- The embedding `op_assign` is `op_assign_with` at `resetHead`. -/
theorem op_assign_eq_with {α : Type} (T : ValueType α) (pocca : Bool) (fuel : Nat)
    (w : World α) (l another : ListObj) :
    op_assign T pocca fuel w l another = op_assign_with resetHead T pocca fuel w l another :=
  rfl

/-- Assigning `[1, -1]` to the list `[5]`, the copy of the second element
throwing: `op_assign_kept` ends in the exception with the list record, the
sequence and both links of the sentinel of the target as before the call;
`op_assign`, which ends the lifetime of the temporary of line 221 with its
statement, reports the write of line 307 through that address as undefined. -/
theorem op_assign_kept_trace :
    (bombSource.bind fun s =>
      (withTarget s [5]).bind fun t =>
        (op_assign_kept bombInt false 3 t.1 t.2 s.2).raised.map fun r =>
          (decide (r.2 = t.2), toList t.1 t.2, toList r.1 r.2,
            decide (r.1.next_ r.2.head_ = t.1.next_ t.2.head_ ∧
              r.1.prev_ r.2.head_ = t.1.prev_ t.2.head_)))
      = some (true, some [5], some [5], true) ∧
    (bombSource.bind fun s =>
      (withTarget s [5]).map fun t => (op_assign bombInt false 3 t.1 t.2 s.2).isUb)
      = some true := by
  decide!
end ListSpec
